import Mathlib

/-!
# Verification of the resume-parser extraction pipeline

A shallow embedding, in Lean 4, of the core of the resume-parser repository
(`resume_parser/`): the document reader, the field extractors (name, email,
skills), the extraction coordinator, the pipeline facade and the
`ResumeData` record, together with theorems settling the specification
claims about them.

Python strings are modelled as Lean `String`s (sequences of unicode scalar
values); character classes of the regular expressions in the source
(`\w`, `\s`, `\d`, `[A-Z]`, ...) are modelled over their ASCII ranges,
which is exact for ASCII text.  External collaborators that are not part
of the repository (the filesystem, `pdfplumber`, the Gemini remote call)
are modelled as explicit parameters; the `json` module is modelled by an
executable serializer/parser over a `PyVal` type mirroring Python values.
Python exceptions are modelled as a class-name/message pair (`PyExc`) and
fallible code returns `Except PyExc`.
-/

/-- A raised Python exception: its class name and its `str()` message. -/
structure PyExc where
  cls : String
  msg : String
deriving Repr, DecidableEq

/-- The characters Python's `str.strip()` and the regex class `\s` treat as
whitespace, restricted to ASCII. -/
def pyWs (c : Char) : Bool :=
  c = ' ' || c = '\t' || c = '\n' || c = '\r' || c = '\x0b' || c = '\x0c'

/-- `str.strip()`: remove leading and trailing whitespace. -/
def pyStrip (s : String) : String :=
  String.mk (((s.data.dropWhile pyWs).reverse.dropWhile pyWs).reverse)

/-- ASCII uppercase letter (`[A-Z]`). -/
def isUpperA (c : Char) : Bool := 'A' ≤ c && c ≤ 'Z'

/-- ASCII lowercase letter (`[a-z]`). -/
def isLowerA (c : Char) : Bool := 'a' ≤ c && c ≤ 'z'

/-- ASCII letter (`[a-zA-Z]`). -/
def isAlphaA (c : Char) : Bool := isUpperA c || isLowerA c

/-- ASCII digit (`\d` restricted to ASCII). -/
def isDigitA (c : Char) : Bool := '0' ≤ c && c ≤ '9'

/-- Python `str.lower()` on a character (ASCII range). -/
def pyLowerChar (c : Char) : Char :=
  if isUpperA c then Char.ofNat (c.toNat + 32) else c

/-- Python `str.lower()`. -/
def pyLower (s : String) : String := String.mk (s.data.map pyLowerChar)

/-- Python `needle in haystack` on strings: substring containment. -/
def listIsSubOf (needle : List Char) : List Char → Bool
  | [] => needle.isEmpty
  | c :: rest => needle.isPrefixOf (c :: rest) || listIsSubOf needle rest

/-- Helper for `splitNl`: accumulate the current line (reversed). -/
def splitNlAux : List Char → List Char → List String
  | [], acc => [String.mk acc.reverse]
  | c :: rest, acc =>
      if c = '\n' then String.mk acc.reverse :: splitNlAux rest []
      else splitNlAux rest (c :: acc)

/-- Python `str.split('\n')`: split at every newline (`"".split('\n') == ['']`). -/
def splitNl (s : String) : List String := splitNlAux s.data []

/-!
## Email extractor (`resume_parser/extractors/email_extractor.py`)

`EmailExtractor.extract` returns the sentinel for empty/whitespace-only
input and otherwise the first match of
`[a-zA-Z0-9._%+-]+@[a-zA-Z0-9.-]+\.[a-zA-Z]{2,}` found by `re.findall`
(leftmost match, greedy quantifiers with backtracking).
-/

/-- The local-part character class `[a-zA-Z0-9._%+-]`. -/
def isEmailA (c : Char) : Bool :=
  isAlphaA c || isDigitA c || c = '.' || c = '_' || c = '%' || c = '+' || c = '-'

/-- The domain character class `[a-zA-Z0-9.-]`. -/
def isEmailB (c : Char) : Bool :=
  isAlphaA c || isDigitA c || c = '.' || c = '-'

/-- Backtracking of `[a-zA-Z0-9.-]+\.[a-zA-Z]{2,}` inside the maximal
domain-class run `b`: the engine tries the longest `[a-zA-Z0-9.-]+` first,
so the chosen `\.` is the rightmost dot of `b` (at index ≥ 1) that is
followed by at least two ASCII letters; `[a-zA-Z]{2,}` then takes the
maximal letter run.  Returns the matched domain characters. -/
def emailDomTry (b : List Char) : Option (List Char) :=
  (List.range b.length).reverse.findSome? fun k =>
    if 1 ≤ k ∧ b.get? k = some '.' then
      let tld := (b.drop (k + 1)).takeWhile isAlphaA
      if 2 ≤ tld.length then some (b.take k ++ '.' :: tld) else none
    else none

/-- Attempt to match the email pattern anchored at the head of `cs`
(the way the regex engine tries each scan position).  The local part
`[a-zA-Z0-9._%+-]+` must be the maximal class run (the next char has to be
`@`, which is outside the class). -/
def emailMatchAt (cs : List Char) : Option (List Char) :=
  let a := cs.takeWhile isEmailA
  if a.isEmpty then none
  else
    match cs.drop a.length with
    | '@' :: rest =>
        let b := rest.takeWhile isEmailB
        match emailDomTry b with
        | some dom => some (a ++ '@' :: dom)
        | none => none
    | _ => none

/-- Left-to-right scan of `re.findall`: the first position whose anchored
match succeeds wins. -/
def emailScan : List Char → Option (List Char)
  | [] => none
  | c :: rest =>
      match emailMatchAt (c :: rest) with
      | some m => some m
      | none => emailScan rest

/-- `EmailExtractor.extract`. -/
def emailExtract (text : String) : String :=
  if pyStrip text = "" then "unknown@example.com"
  else
    match emailScan text.data with
    | some m => String.mk m
    | none => "unknown@example.com"

/-- A standalone string fully matches the email pattern
`[a-zA-Z0-9._%+-]+@[a-zA-Z0-9.-]+\.[a-zA-Z]{2,}` (anchored at both ends):
local part, `@`, domain part, a final dot, and a TLD of ≥ 2 letters. -/
def emailGrammar (s : String) : Bool :=
  let cs := s.data
  let a := cs.takeWhile isEmailA
  match cs.drop a.length with
  | '@' :: rest =>
      let tld := rest.reverse.takeWhile isAlphaA
      let preDot := rest.reverse.drop tld.length
      (!a.isEmpty) &&
      decide (2 ≤ tld.length) &&
      (match preDot with
       | '.' :: dom => (!dom.isEmpty) && dom.all isEmailB
       | _ => false)
  | _ => false

/-!
## Name extractor (`resume_parser/extractors/name_extractor.py`)

`NameExtractor.extract` works on the non-empty stripped lines of the text.
For each of the first 5 lines it tries, in this order,
`^([A-Z][a-z]+(?:\s+[A-Z][a-z]+){1,3})$` (the "strict" pattern) and
`^([A-Z][a-z]+(?:\s+[A-Z]\.?\s*)?(?:\s+[A-Z][a-z]+)+)$` (the "loose"
pattern, allowing a middle initial), returning the line on the first
match.  Otherwise it falls back to cleaning the first non-empty line.
-/

/-- Split into the maximal runs of non-whitespace characters (whitespace
runs are separators and are dropped). -/
def wsTokensAux : List Char → List Char → List (List Char)
  | [], acc => if acc.isEmpty then [] else [acc.reverse]
  | c :: rest, acc =>
      if pyWs c then
        if acc.isEmpty then wsTokensAux rest [] else acc.reverse :: wsTokensAux rest []
      else wsTokensAux rest (c :: acc)

def wsTokens (cs : List Char) : List (List Char) := wsTokensAux cs []

/-- A token matching `[A-Z][a-z]+` exactly. -/
def isCapWordTok (t : List Char) : Bool :=
  match t with
  | c :: rest => isUpperA c && !rest.isEmpty && rest.all isLowerA
  | [] => false

/-- A token matching `[A-Z]\.?` exactly (middle initial with optional dot). -/
def isMidTok (t : List Char) : Bool :=
  match t with
  | [c] => isUpperA c
  | [c, d] => isUpperA c && d = '.'
  | _ => false

/-- The string neither starts nor ends with whitespace (and is non-empty).
Both anchored patterns start with `[A-Z]` and end with `[a-z]`, so any
edge whitespace makes them fail. -/
def noEdgeWs (cs : List Char) : Bool :=
  match cs, cs.reverse with
  | c :: _, d :: _ => !pyWs c && !pyWs d
  | _, _ => false

/-- Full-line match of `^([A-Z][a-z]+(?:\s+[A-Z][a-z]+){1,3})$`
(`re.match` + `$`, so anchored at both ends).  The character classes
`[A-Z]`, `[a-z]` and `\s` are pairwise disjoint, so greedy matching
coincides with splitting on maximal whitespace runs: the line matches
iff it has no edge whitespace and consists of 2 to 4 tokens, each of the
form `[A-Z][a-z]+`. -/
def strictMatch (s : String) : Bool :=
  noEdgeWs s.data &&
    (let ts := wsTokens s.data
     decide (2 ≤ ts.length) && decide (ts.length ≤ 4) && ts.all isCapWordTok)

/-- Full-line match of `^([A-Z][a-z]+(?:\s+[A-Z]\.?\s*)?(?:\s+[A-Z][a-z]+)+)$`.
By the same disjointness argument (the `\.?` must consume a dot when one
follows the initial, and the `\s*\s+` in sequence amount to one whitespace
run), the line matches iff it has no edge whitespace and its tokens are
either all `[A-Z][a-z]+` words (at least 2), or a `[A-Z][a-z]+` word, then
one `[A-Z]\.?` middle initial, then at least one more `[A-Z][a-z]+` word. -/
def looseMatch (s : String) : Bool :=
  noEdgeWs s.data &&
    (let ts := wsTokens s.data
     (decide (2 ≤ ts.length) && ts.all isCapWordTok) ||
     (match ts with
      | t1 :: t2 :: rest =>
          isCapWordTok t1 && isMidTok t2 && !rest.isEmpty && rest.all isCapWordTok
      | _ => false))

/-- The non-empty stripped lines:
`[line.strip() for line in text.split('\n') if line.strip()]`. -/
def neLines (text : String) : List String :=
  ((splitNl text).map pyStrip).filter (fun l => l ≠ "")

/-- The per-line loop of `NameExtractor.extract`: for each line try the
strict pattern, then the loose pattern; first match wins. -/
def findNameLine : List String → Option String
  | [] => none
  | l :: rest =>
      if strictMatch l then some l
      else if looseMatch l then some l
      else findNameLine rest

/-- One keyword of the email-like filter, matched case-insensitively at the
head of `cs`. -/
def kwAhead (cs : List Char) : Bool :=
  ["gmail", "yahoo", "hotmail", "outlook", "mail", "email"].any
    (fun kw => kw.data.isPrefixOf (cs.map pyLowerChar))

/-- `re.search(r'[@]|[a-zA-Z0-9._%+-]+\s*(gmail|yahoo|hotmail|outlook|mail|email)', line, re.IGNORECASE)`.
A match of the second alternative exists iff some position holds a
class character directly followed (after the whitespace run, which `\s*`
must traverse entirely since no keyword starts with whitespace) by a
keyword — `[...]+` can be taken of length 1 at the last class character. -/
def emailLikeSearch : List Char → Bool
  | [] => false
  | c :: rest =>
      c = '@' || (isEmailA c && kwAhead (rest.dropWhile pyWs)) || emailLikeSearch rest

/-- `\w` restricted to ASCII: letters, digits and underscore. -/
def isWordA (c : Char) : Bool := isAlphaA c || isDigitA c || c = '_'

/-- `re.sub(r'[^\w\s\.]', ' ', line)`: replace every character that is not
a word character, whitespace or a dot by a space. -/
def cleanChars (s : String) : String :=
  String.mk (s.data.map (fun c => if isWordA c || pyWs c || c = '.' then c else ' '))

/-- Join character-list tokens with single spaces. -/
def joinSpace : List (List Char) → List Char
  | [] => []
  | [t] => t
  | t :: rest => t ++ ' ' :: joinSpace rest

/-- `' '.join(line.split())`: collapse whitespace runs to single spaces and
drop edge whitespace. -/
def collapseWs (s : String) : String :=
  String.mk (joinSpace (wsTokens s.data))

/-- `\d{3,}` found somewhere: three consecutive ASCII digits. -/
def digitRun3 : List Char → Bool
  | a :: b :: c :: rest => (isDigitA a && isDigitA b && isDigitA c) || digitRun3 (b :: c :: rest)
  | _ => false

/-- `\..*\.` found somewhere: a dot, then (on the same line — `.` does not
cross `\n`) another dot. -/
def twoDots : List Char → Bool
  | [] => false
  | c :: rest => (c = '.' && (rest.takeWhile (fun d => d ≠ '\n')).contains '.') || twoDots rest

/-- `re.search(r'\d{3,}|\..*\.', line)`. -/
def rejectRe (s : String) : Bool := digitRun3 s.data || twoDots s.data

/-- The fallback branch of `NameExtractor.extract`: take the first
non-empty line, skip it when it looks email-like, clean it, and reject
phone-number/email/URL-looking or empty or over-long candidates. -/
def nameFallback (lines : List String) : String :=
  match lines with
  | [] => "Unknown"
  | l1 :: rest =>
      let pick : Option String :=
        if emailLikeSearch l1.data then
          match rest with
          | l2 :: _ => some l2
          | [] => none
        else some l1
      match pick with
      | none => "Unknown"
      | some l =>
          let cleaned := collapseWs (cleanChars l)
          if rejectRe cleaned then "Unknown"
          else if cleaned.length ≤ 50 && 0 < cleaned.length then cleaned
          else "Unknown"

/-- `NameExtractor.extract`. -/
def nameExtract (text : String) : String :=
  if pyStrip text = "" then "Unknown"
  else
    let lines := neLines text
    if lines.isEmpty then "Unknown"
    else
      match findNameLine (lines.take 5) with
      | some l => l
      | none => nameFallback lines

/-!
## Python values and the `json` module

`PyVal` mirrors the values `json.loads` can produce (`None`, `bool`,
`int`, `float`, `str`, `list`, `dict`).  Floats are carried as their
number-literal text (a JSON number literal denotes zero exactly when every
mantissa digit is `0`, which is all the truthiness test needs; the
normalisation Python's `str(float)` performs is not modelled).
-/

inductive PyVal where
  | pynone
  | bool (b : Bool)
  | int (n : Int)
  | float (r : String)
  | str (s : String)
  | list (xs : List PyVal)
  | dict (kvs : List (String × PyVal))

/-- Truthiness of a float literal: non-zero iff some mantissa digit is
non-zero (the exponent cannot change zeroness). -/
def pyFloatTruthy (r : String) : Bool :=
  (r.data.takeWhile (fun c => c ≠ 'e' && c ≠ 'E')).any (fun c => isDigitA c && c ≠ '0')

/-- Python truthiness (`if skill:`): `None`, `False`, zero, `''`, `[]`
and `{}` are falsy. -/
def pyTruthy : PyVal → Bool
  | .pynone => false
  | .bool b => b
  | .int n => n ≠ 0
  | .float r => pyFloatTruthy r
  | .str s => !s.isEmpty
  | .list xs => !xs.isEmpty
  | .dict kvs => !kvs.isEmpty

/-- Join with `", "`, as Python's container repr does. -/
def joinCommaSp : List String → String
  | [] => ""
  | [x] => x
  | x :: rest => x ++ ", " ++ joinCommaSp rest

/-- Python `repr()` (string quoting is simplified to plain single
quotes). -/
def pyRepr : PyVal → String
  | .pynone => "None"
  | .bool true => "True"
  | .bool false => "False"
  | .int n => toString n
  | .float r => r
  | .str s => "'" ++ s ++ "'"
  | .list xs => "[" ++ joinCommaSp (xs.attach.map (fun x => pyRepr x.1)) ++ "]"
  | .dict kvs =>
      "\x7b" ++ joinCommaSp (kvs.attach.map (fun x => "'" ++ x.1.1 ++ "': " ++ pyRepr x.1.2)) ++ "\x7d"
termination_by v => sizeOf v
decreasing_by
  · have := List.sizeOf_lt_of_mem x.2
    simp only [PyVal.list.sizeOf_spec]
    omega
  · have := List.sizeOf_lt_of_mem x.2
    have : sizeOf x.1.2 ≤ sizeOf x.1 := by
      obtain ⟨⟨k, v⟩, hv⟩ := x
      simp only [Prod.mk.sizeOf_spec]
      omega
    simp only [PyVal.dict.sizeOf_spec]
    omega

/-- Python `str()`: identity on strings, `repr` on containers. -/
def pyStr (v : PyVal) : String :=
  match v with
  | .str s => s
  | .pynone => "None"
  | .bool true => "True"
  | .bool false => "False"
  | .int n => toString n
  | .float r => r
  | .list xs => pyRepr (.list xs)
  | .dict kvs => pyRepr (.dict kvs)

/-- Lower-case hexadecimal digit, as Python's `json` emits in `\uXXXX`. -/
def hexDigitChar (n : Nat) : Char :=
  if n < 10 then Char.ofNat ('0'.toNat + n) else Char.ofNat ('a'.toNat + n - 10)

/-- JSON string escaping of one character, as `json.dumps` does (modelled
with `ensure_ascii=False`: characters ≥ U+0020 other than `"` and `\` are
emitted literally; the ASCII-escaping default only changes the
intermediate text, not what it decodes back to). -/
def escChar (c : Char) : List Char :=
  if c = '"' then ['\\', '"']
  else if c = '\\' then ['\\', '\\']
  else if c = '\n' then ['\\', 'n']
  else if c = '\t' then ['\\', 't']
  else if c = '\r' then ['\\', 'r']
  else if c = '\x08' then ['\\', 'b']
  else if c = '\x0c' then ['\\', 'f']
  else if c.toNat < 0x20 then
    ['\\', 'u', '0', '0', hexDigitChar (c.toNat / 16), hexDigitChar (c.toNat % 16)]
  else [c]

/-- A JSON string literal for `s`, quotes included. -/
def encStr (s : String) : List Char :=
  '"' :: (s.data.map escChar).flatten ++ ['"']

/-- The whitespace `json.loads` skips between tokens. -/
def isJWs (c : Char) : Bool := c = ' ' || c = '\t' || c = '\n' || c = '\r'

def skipJWs (cs : List Char) : List Char := cs.dropWhile isJWs

/-- Value of a hexadecimal digit character (code points 48-57 are the decimal
digits, 97-102 the lowercase letters a-f, 65-70 the uppercase A-F). -/
def hexVal (c : Char) : Option Nat :=
  let n := c.toNat
  if 48 ≤ n && n ≤ 57 then some (n - 48)
  else if 97 ≤ n && n ≤ 102 then some (n - 87)
  else if 65 ≤ n && n ≤ 70 then some (n - 55)
  else none

/-- Decode one short escape after a backslash: the letters n, t, r, b, f
map to their control characters, and a quote, backslash or slash maps to
itself. -/
def escDecode (e : Char) : Option Char :=
  if e = 'n' then some '\n'
  else if e = 't' then some '\t'
  else if e = 'r' then some '\r'
  else if e = 'b' then some '\x08'
  else if e = 'f' then some '\x0c'
  else if e = '"' || e = '\\' || e = '/' then some e
  else none

/-- Parse the body of a JSON string literal (after the opening quote);
returns the decoded characters and the input after the closing quote.
Surrogate-pair recombination is not modelled (it can only arise from
`\uXXXX` escapes of non-BMP characters, which `encStr` never emits). -/
def parseStrBody : List Char → Option (List Char × List Char)
  | [] => none
  | c :: rest =>
      if c = '"' then some ([], rest)
      else if c = '\\' then
        match rest with
        | 'u' :: a :: b :: c2 :: d :: rest2 =>
            (match hexVal a, hexVal b, hexVal c2, hexVal d with
             | some x, some y, some z, some w =>
                 (parseStrBody rest2).map
                   (fun p => (Char.ofNat (((x * 16 + y) * 16 + z) * 16 + w) :: p.1, p.2))
             | _, _, _, _ => none)
        | e :: rest2 =>
            (match escDecode e with
             | some c3 => (parseStrBody rest2).map (fun p => (c3 :: p.1, p.2))
             | none => none)
        | [] => none
      else (parseStrBody rest).map (fun p => (c :: p.1, p.2))

/-- Characters that can occur in a JSON number literal. -/
def numChar (c : Char) : Bool :=
  isDigitA c || c = '+' || c = '-' || c = '.' || c = 'e' || c = 'E'

def digitsToNat (ds : List Char) : Nat :=
  ds.foldl (fun acc c => acc * 10 + (c.toNat - '0'.toNat)) 0

/-- Parse a JSON number: an integer literal yields `int`, a literal with a
fraction or exponent yields `float` (carried as its text). -/
def parseNum (cs : List Char) : Option (PyVal × List Char) :=
  let run := cs.takeWhile numChar
  let rest := cs.drop run.length
  if run.isEmpty then none
  else if run.any (fun c => c = '.' || c = 'e' || c = 'E') then
    some (.float (String.mk run), rest)
  else
    match run with
    | '-' :: ds =>
        if ds.isEmpty || !ds.all isDigitA then none
        else some (.int (-(digitsToNat ds : Int)), rest)
    | ds => if !ds.all isDigitA then none else some (.int (digitsToNat ds), rest)

/-- Parsing mode: a single value, the items of an array (after `[`), or
the pairs of an object (after `{`). -/
inductive JMode where
  | value
  | items
  | pairs

/-- Recursive-descent JSON parser, fuelled (each call consumes one unit of
fuel; `2 * length + 8` always suffices).  Mirrors `json.loads` on the
JSON subset it accepts; objects are kept as ordered key/value lists. -/
def parseJ : Nat → JMode → List Char → Option (PyVal × List Char)
  | 0, _, _ => none
  | fuel + 1, .value, cs =>
      (match skipJWs cs with
       | '"' :: rest => (parseStrBody rest).map (fun p => (.str (String.mk p.1), p.2))
       | '[' :: rest =>
           (match skipJWs rest with
            | ']' :: r => some (.list [], r)
            | cs' => parseJ fuel .items cs')
       | '{' :: rest =>
           (match skipJWs rest with
            | '}' :: r => some (.dict [], r)
            | cs' => parseJ fuel .pairs cs')
       | 't' :: 'r' :: 'u' :: 'e' :: r => some (.bool true, r)
       | 'f' :: 'a' :: 'l' :: 's' :: 'e' :: r => some (.bool false, r)
       | 'n' :: 'u' :: 'l' :: 'l' :: r => some (.pynone, r)
       | cs' => parseNum cs')
  | fuel + 1, .items, cs =>
      (match parseJ fuel .value cs with
       | some (v, r) =>
           (match skipJWs r with
            | ',' :: r' =>
                (match parseJ fuel .items r' with
                 | some (.list xs, r'') => some (.list (v :: xs), r'')
                 | _ => none)
            | ']' :: r' => some (.list [v], r')
            | _ => none)
       | none => none)
  | fuel + 1, .pairs, cs =>
      (match skipJWs cs with
       | '"' :: rest =>
           (match parseStrBody rest with
            | some (k, r) =>
                (match skipJWs r with
                 | ':' :: r' =>
                     (match parseJ fuel .value r' with
                      | some (v, r'') =>
                          (match skipJWs r'' with
                           | ',' :: r3 =>
                               (match parseJ fuel .pairs r3 with
                                | some (.dict kvs, r4) =>
                                    some (.dict ((String.mk k, v) :: kvs), r4)
                                | _ => none)
                           | '}' :: r3 => some (.dict [(String.mk k, v)], r3)
                           | _ => none)
                      | none => none)
                 | _ => none)
            | none => none)
       | _ => none)

/-- `json.loads`: parse one value and require only whitespace after it.
(Duplicate object keys are kept in order rather than last-wins — our uses
never produce duplicates.) -/
def pyJsonLoads (s : String) : Option PyVal :=
  match parseJ (2 * s.data.length + 8) .value s.data with
  | some (v, rest) => if (skipJWs rest).isEmpty then some v else none
  | none => none

/-!
## `ResumeData` (`resume_parser/models/resume_data.py`)

An immutable record of the three extracted fields, with `to_dict`
(`dataclasses.asdict`: keys in field-declaration order `name`, `email`,
`skills`) and `to_json` (`json.dumps(self.to_dict(), indent=indent)`).
`to_json` is modelled by producing exactly the text `json.dumps` emits for
this shape of dictionary at a given non-negative `indent`.
-/

structure ResumeData where
  name : String
  email : String
  skills : List String
deriving Repr, DecidableEq

/-- `asdict(self)`, as the Python value it denotes. -/
def ResumeData.to_dict (rd : ResumeData) : PyVal :=
  .dict [("name", .str rd.name), ("email", .str rd.email),
         ("skills", .list (rd.skills.map .str))]

def nSpaces (n : Nat) : List Char := List.replicate n ' '

/-- The items of the `skills` array under `indent=w`: each on its own
line, indented two levels, separated by commas. -/
def encSkillsItems (w : Nat) : List String → List Char
  | [] => []
  | [x] => nSpaces (2 * w) ++ encStr x
  | x :: rest => nSpaces (2 * w) ++ encStr x ++ ',' :: '\n' :: encSkillsItems w rest

/-- The `skills` array under `indent=w` (`json.dumps` renders an empty
array as `[]` even in indented mode). -/
def encSkills (w : Nat) : List String → List Char
  | [] => ['[', ']']
  | xs => '[' :: '\n' :: (encSkillsItems w xs ++ '\n' :: (nSpaces w ++ [']']))

/-- `json.dumps(self.to_dict(), indent=indent)`: the exact serialized text
for the three-key dictionary. -/
def ResumeData.to_json (rd : ResumeData) (indent : Nat) : String :=
  String.mk
    ('{' :: '\n' ::
      (nSpaces indent ++ encStr "name" ++ ':' :: ' ' :: encStr rd.name ++ ',' :: '\n' ::
        (nSpaces indent ++ encStr "email" ++ ':' :: ' ' :: encStr rd.email ++ ',' :: '\n' ::
          (nSpaces indent ++ encStr "skills" ++ ':' :: ' ' :: encSkills indent rd.skills ++
            '\n' :: ['}']))))

/-!
## Skills extractor (`resume_parser/extractors/skills_extractor.py`)

`SkillsExtractor.extract` returns `[]` for empty/whitespace-only input
without calling the remote model.  Otherwise it calls the Gemini API
(modelled by the `RemoteOutcome` parameter): a falsy response or response
text yields `[]`; a textual response is parsed by
`_parse_skills_from_response`; an exception is caught, a warning is
printed, and `_fallback_extraction` is used.  The result is the list of
skills paired with the list of printed warnings.
-/

/-- Outcome of `self.model.generate_content(prompt)`:  the call raises, or
returns a response whose `.text` is falsy (`None`/empty — `returns none`),
or returns usable text. -/
inductive RemoteOutcome where
  | raises (msg : String)
  | returns (response_text : Option String)

/-- The fixed catalogue `common_skills` of `_fallback_extraction`,
verbatim and in order. -/
def common_skills : List String :=
  ["Python", "Java", "JavaScript", "C++", "C#", "Ruby", "Go", "Rust",
   "SQL", "NoSQL", "MongoDB", "PostgreSQL", "MySQL",
   "React", "Angular", "Vue", "Node.js", "Django", "Flask", "Spring",
   "Docker", "Kubernetes", "AWS", "Azure", "GCP",
   "Git", "CI/CD", "Jenkins", "Linux", "Unix",
   "Machine Learning", "Deep Learning", "AI", "NLP", "Computer Vision",
   "TensorFlow", "PyTorch", "Scikit-learn", "Pandas", "NumPy",
   "REST API", "GraphQL", "Microservices", "Agile", "Scrum"]

/-- `SkillsExtractor._fallback_extraction`: append each catalogue entry
whose lowercase form occurs in the lowercased text. -/
def SkillsExtractor.fallback_extraction (text : String) : List String :=
  common_skills.foldl
    (fun found_skills skill =>
      if listIsSubOf (pyLower skill).data (pyLower text).data then found_skills ++ [skill]
      else found_skills)
    []

/-- `re.search(r'\[.*?\]', response_text, re.DOTALL)`: the match, if any,
starts at the first `[` and ends at the first `]` after it (lazy `.*?`,
`re.DOTALL` lets it span newlines).  If no `]` follows the first `[`, no
later start position can match either (there is no `]` left), so the
search fails. -/
def findBracket : List Char → Option (List Char)
  | [] => none
  | c :: rest =>
      if c = '[' then
        if rest.contains ']' then some (c :: (rest.takeWhile (fun d => d ≠ ']') ++ [']']))
        else none
      else findBracket rest

/-- `SkillsExtractor._parse_skills_from_response`: find the bracketed
substring, `json.loads` it, and if the value is a list keep the truthy
entries, each passed through `str(...).strip()`; every failure path
returns `[]`. -/
def SkillsExtractor.parse_skills_from_response (response_text : String) : List String :=
  match findBracket response_text.data with
  | some json_str =>
      (match pyJsonLoads (String.mk json_str) with
       | some (.list skills) => (skills.filter pyTruthy).map (fun skill => pyStrip (pyStr skill))
       | some _ => []
       | none => [])
  | none => []

/-- `SkillsExtractor.extract`; the second component collects the printed
warnings. -/
def SkillsExtractor.extract (text : String) (remote : RemoteOutcome) :
    List String × List String :=
  if pyStrip text = "" then ([], [])
  else
    match remote with
    | .returns none => ([], [])
    | .returns (some response_text) =>
        (SkillsExtractor.parse_skills_from_response response_text, [])
    | .raises m => (SkillsExtractor.fallback_extraction text,
        ["Warning: Gemini API call failed: " ++ m])

/-!
## Extraction coordinator (`resume_parser/core/resume_extractor.py`)

Field extractors are dynamically typed in Python; they are modelled as
functions from the text to a `PyVal` (or a raised exception), and the
registry as an ordered key/value list with Python-`dict` operations.
`extract` is instrumented with the list of `(field, text)` extractor
invocations it performs, in order, so that call order and short-circuiting
on failure are visible in the model.
-/

/-- A field extractor: `extract(text)` returns a value or raises. -/
abbrev Extractor := String → Except PyExc PyVal

def dictHasKey (reg : List (String × α)) (k : String) : Bool :=
  reg.any (fun p => p.1 = k)

def dictGet? (reg : List (String × α)) (k : String) : Option α :=
  (reg.find? (fun p => p.1 = k)).map (fun p => p.2)

/-- Python `d[k] = v`: overwrite in place if present, else append. -/
def dictSet (reg : List (String × α)) (k : String) (v : α) : List (String × α) :=
  if dictHasKey reg k then reg.map (fun p => if p.1 = k then (k, v) else p)
  else reg ++ [(k, v)]

/-- Python `del d[k]` (for the unique-key lists a `dict` produces). -/
def dictDel (reg : List (String × α)) (k : String) : List (String × α) :=
  reg.filter (fun p => p.1 ≠ k)

/-- The coordinator: owns the field-extractor registry. -/
structure ResumeExtractor where
  field_extractors : List (String × Extractor)

/-- `ResumeExtractor.__init__`: requires the reserved keys `name`,
`email`, `skills` (the exact Python formatting of the missing-key set in
the message is not reproduced; its class and prefix are). -/
def ResumeExtractor.init (field_extractors : List (String × Extractor)) :
    Except PyExc ResumeExtractor :=
  let missing := (["name", "email", "skills"].filter
    (fun k => !dictHasKey field_extractors k))
  if missing.isEmpty then .ok ⟨field_extractors⟩
  else .error ⟨"ValueError", "Missing required field extractors: " ++ toString missing⟩

/-- The record the coordinator assembles
(`ResumeData(name=..., email=..., skills=...)` with dynamically typed
fields; the standard extractors put a `.str` in `name`/`email` and a
`.list` of `.str` in `skills`). -/
structure ResumeRecordV where
  name : PyVal
  email : PyVal
  skills : PyVal

/-- `str(KeyError(k))` for a missing dictionary key is the key's repr. -/
def keyErr (k : String) : PyExc := ⟨"KeyError", "'" ++ k ++ "'"⟩

/-- The `except Exception` wrapper of `ResumeExtractor.extract`. -/
def wrapExtract (e : PyExc) : PyExc :=
  ⟨"Exception", "Failed to extract resume data: " ++ e.msg⟩

/-- `ResumeExtractor.extract`, instrumented with the ordered list of
extractor invocations `(field, text)` it performs. -/
def ResumeExtractor.extract (self : ResumeExtractor) (text : String) :
    Except PyExc ResumeRecordV × List (String × String) :=
  if pyStrip text = "" then
    (.error ⟨"ValueError", "Cannot extract from empty text"⟩, [])
  else
    match dictGet? self.field_extractors "name" with
    | none => (.error (wrapExtract (keyErr "name")), [])
    | some nf =>
        match nf text with
        | .error e => (.error (wrapExtract e), [("name", text)])
        | .ok nv =>
            match dictGet? self.field_extractors "email" with
            | none => (.error (wrapExtract (keyErr "email")), [("name", text)])
            | some ef =>
                match ef text with
                | .error e => (.error (wrapExtract e), [("name", text), ("email", text)])
                | .ok ev =>
                    match dictGet? self.field_extractors "skills" with
                    | none =>
                        (.error (wrapExtract (keyErr "skills")),
                         [("name", text), ("email", text)])
                    | some sf =>
                        match sf text with
                        | .error e =>
                            (.error (wrapExtract e),
                             [("name", text), ("email", text), ("skills", text)])
                        | .ok sv =>
                            (.ok ⟨nv, ev, sv⟩,
                             [("name", text), ("email", text), ("skills", text)])

/-- `ResumeExtractor.add_extractor`: upsert, never fails. -/
def ResumeExtractor.add_extractor (self : ResumeExtractor) (field_name : String)
    (extractor : Extractor) : ResumeExtractor :=
  ⟨dictSet self.field_extractors field_name extractor⟩

/-- `ResumeExtractor.remove_extractor`: delete, `KeyError` if absent. -/
def ResumeExtractor.remove_extractor (self : ResumeExtractor) (field_name : String) :
    Except PyExc ResumeExtractor :=
  if dictHasKey self.field_extractors field_name then
    .ok ⟨dictDel self.field_extractors field_name⟩
  else .error ⟨"KeyError", "Field extractor '" ++ field_name ++ "' not found"⟩

/-- `ResumeExtractor.get_extractor`: lookup, `KeyError` if absent. -/
def ResumeExtractor.get_extractor (self : ResumeExtractor) (field_name : String) :
    Except PyExc Extractor :=
  match dictGet? self.field_extractors field_name with
  | some ex => .ok ex
  | none => .error ⟨"KeyError", "Field extractor '" ++ field_name ++ "' not found"⟩

/-!
## Pipeline facade (`resume_parser/core/framework.py`)

`ResumeParserFramework.parse_resume` with the filesystem abstracted as a
`path_exists` flag and the bound reader as a function parameter.  The
second component records which stages ran (`"read"`, `"extract"`). -/

/-- The read-stage wrapper of `parse_resume`. -/
def wrapRead (e : PyExc) : PyExc := ⟨"Exception", "Failed to parse file: " ++ e.msg⟩

def ResumeParserFramework.parse_resume (path_exists : Bool)
    (file_reader : String → Except PyExc String) (resume_extractor : ResumeExtractor)
    (file_path : String) : Except PyExc ResumeRecordV × List String :=
  if !path_exists then
    (.error ⟨"FileNotFoundError", "Resume file not found: " ++ file_path⟩, [])
  else
    match file_reader file_path with
    | .error e => (.error (wrapRead e), ["read"])
    | .ok text =>
        match (resume_extractor.extract text).1 with
        | .error e => (.error (wrapExtract e), ["read", "extract"])
        | .ok resume_data => (.ok resume_data, ["read", "extract"])

/-!
## PDF reader (`resume_parser/parsers/pdf_parser.py`)

`PDFParser.parse` with the filesystem and `pdfplumber` abstracted: the
path's existence, its extension (`path.suffix`), and the outcome of
opening the document and extracting each page's text
(`.error m` models any exception raised inside the `with` block;
`.ok pages` gives `page.extract_text()` per page in document order,
`none` for a page returning `None`). -/

/-- `'\n'.join(...)`. -/
def joinNl : List String → String
  | [] => ""
  | [x] => x
  | x :: rest => x ++ "\n" ++ joinNl rest

def PDFParser.parse (path_exists : Bool) (file_path : String) (suffix : String)
    (pdf_pages : Except String (List (Option String))) : Except PyExc String :=
  if !path_exists then
    .error ⟨"FileNotFoundError", "PDF file not found: " ++ file_path⟩
  else if pyLower suffix ≠ ".pdf" then
    .error ⟨"ValueError", "File is not a PDF: " ++ file_path⟩
  else
    match pdf_pages with
    | .error m => .error ⟨"Exception", "Failed to parse PDF file: " ++ m⟩
    | .ok pages =>
        let text_content := pages.filterMap
          (fun page_text =>
            match page_text with
            | some t => if t.isEmpty then none else some t
            | none => none)
        let full_text := joinNl text_content
        if pyStrip full_text = "" then
          .error ⟨"Exception",
            "Failed to parse PDF file: PDF appears to be empty or contains no extractable text"⟩
        else .ok full_text

/-!
## Helper lemmas
-/

theorem take22_msg_ne (a b : String) :
    "Failed to parse file: " ++ a ≠ "Failed to extract resume data: " ++ b := by
  intro h
  have hd := congrArg String.data h
  rw [String.data_append, String.data_append] at hd
  have h22 := congrArg (fun l => List.take 22 l) hd
  simp only at h22
  rw [List.take_append_of_le_length (by decide),
      List.take_append_of_le_length (by decide)] at h22
  exact absurd h22 (by decide)

theorem find?_set_map (as : List (String × α)) (k : String) (v : α)
    (h : dictHasKey as k = true) :
    (as.map (fun p => if p.1 = k then (k, v) else p)).find? (fun p => decide (p.1 = k)) =
      some (k, v) := by
  induction as with
  | nil => simp [dictHasKey] at h
  | cons a as ih =>
      by_cases hk : a.1 = k
      · simp [hk]
      · have h' : dictHasKey as k = true := by simpa [dictHasKey, hk] using h
        simp [hk, ih h']

theorem dictGet?_dictSet (reg : List (String × α)) (k : String) (v : α) :
    dictGet? (dictSet reg k v) k = some v := by
  unfold dictSet
  by_cases h : dictHasKey reg k
  · simp [h, dictGet?, find?_set_map reg k v h]
  · have hnone : reg.find? (fun p => decide (p.1 = k)) = none := by
      rw [List.find?_eq_none]
      intro x hx
      simp only [dictHasKey, List.any_eq_true] at h
      simp only [decide_eq_true_eq]
      exact fun hxk => h ⟨x, hx, by simp [hxk]⟩
    simp [h, dictGet?, List.find?_append, hnone]

theorem dictGet?_dictDel (reg : List (String × α)) (k : String) :
    dictGet? (dictDel reg k) k = none := by
  induction reg with
  | nil => simp [dictDel, dictGet?]
  | cons a as ih =>
      by_cases hk : a.1 = k
      · simp only [dictDel, dictGet?, hk, List.filter_cons, decide_eq_true_eq] at ih ⊢
        simp [ih]
      · simp only [dictDel, dictGet?, hk, List.filter_cons, decide_eq_true_eq] at ih ⊢
        simp [hk, ih]

/-!
## Claim theorems
-/

/-- C1: `ResumeExtractor.extract` raises `EmptyInput` (`ValueError`) on
empty/whitespace-only text; otherwise it invokes the `name`, `email` and
`skills` extractors in that fixed order, each on the identical input text,
assembles the record from their three results, catches any extractor
exception and re-raises it as a single wrapped extraction-failure error
carrying the original message, and never returns a partial record (a
failure at any extractor stops the sequence and yields only the error). -/
theorem coordinator_extract_contract
    (reg : List (String × Extractor)) (nf ef sf : Extractor) (text : String)
    (hn : dictGet? reg "name" = some nf) (he : dictGet? reg "email" = some ef)
    (hs : dictGet? reg "skills" = some sf) :
    (pyStrip text = "" →
      ResumeExtractor.extract ⟨reg⟩ text =
        (.error ⟨"ValueError", "Cannot extract from empty text"⟩, [])) ∧
    (pyStrip text ≠ "" →
      (∀ nv ev sv, nf text = .ok nv → ef text = .ok ev → sf text = .ok sv →
        ResumeExtractor.extract ⟨reg⟩ text =
          (.ok ⟨nv, ev, sv⟩, [("name", text), ("email", text), ("skills", text)])) ∧
      (∀ e, nf text = .error e →
        ResumeExtractor.extract ⟨reg⟩ text =
          (.error (wrapExtract e), [("name", text)])) ∧
      (∀ nv e, nf text = .ok nv → ef text = .error e →
        ResumeExtractor.extract ⟨reg⟩ text =
          (.error (wrapExtract e), [("name", text), ("email", text)])) ∧
      (∀ nv ev e, nf text = .ok nv → ef text = .ok ev → sf text = .error e →
        ResumeExtractor.extract ⟨reg⟩ text =
          (.error (wrapExtract e), [("name", text), ("email", text), ("skills", text)]))) := by
  constructor
  · intro h0
    simp [ResumeExtractor.extract, h0]
  · intro h0
    refine ⟨?_, ?_, ?_, ?_⟩
    · intro nv ev sv h1 h2 h3
      simp [ResumeExtractor.extract, h0, hn, he, hs, h1, h2, h3]
    · intro e h1
      simp [ResumeExtractor.extract, h0, hn, he, hs, h1]
    · intro nv e h1 h2
      simp [ResumeExtractor.extract, h0, hn, he, hs, h1, h2]
    · intro nv ev e h1 h2 h3
      simp [ResumeExtractor.extract, h0, hn, he, hs, h1, h2, h3]

theorem coordinator_extract_contract_witness :
    ResumeExtractor.extract
        ⟨[("name", fun _ => .ok (.str "N")), ("email", fun _ => .ok (.str "E")),
          ("skills", fun _ => .ok (.list []))]⟩ "hi" =
      (.ok ⟨.str "N", .str "E", .list []⟩,
       [("name", "hi"), ("email", "hi"), ("skills", "hi")]) :=
  ((coordinator_extract_contract
      [("name", fun _ => .ok (.str "N")), ("email", fun _ => .ok (.str "E")),
       ("skills", fun _ => .ok (.list []))]
      (fun _ => .ok (.str "N")) (fun _ => .ok (.str "E")) (fun _ => .ok (.list []))
      "hi" rfl rfl rfl).2 (by decide)).1 _ _ _ rfl rfl rfl

/-- C2: `parse_resume` fails with `FileNotFoundError` before invoking the
reader when the path does not exist (no stage runs); a reader failure is
re-raised wrapped with the read-stage message preserving the cause's
description; a coordinator failure is re-raised wrapped with the
extract-stage message; and no read-stage wrapped error ever equals an
extract-stage wrapped error (the stage prefixes differ), so the caller can
distinguish the failing stage. -/
theorem framework_stage_errors (pe : Bool) (fp : String → Except PyExc String)
    (re : ResumeExtractor) (path : String) :
    (pe = false →
      ResumeParserFramework.parse_resume pe fp re path =
        (.error ⟨"FileNotFoundError", "Resume file not found: " ++ path⟩, [])) ∧
    (∀ e, pe = true → fp path = .error e →
      ResumeParserFramework.parse_resume pe fp re path =
        (.error ⟨"Exception", "Failed to parse file: " ++ e.msg⟩, ["read"])) ∧
    (∀ text e, pe = true → fp path = .ok text → (re.extract text).1 = .error e →
      ResumeParserFramework.parse_resume pe fp re path =
        (.error ⟨"Exception", "Failed to extract resume data: " ++ e.msg⟩,
         ["read", "extract"])) ∧
    (∀ e₁ e₂ : PyExc, wrapRead e₁ ≠ wrapExtract e₂) := by
  refine ⟨?_, ?_, ?_, ?_⟩
  · intro h0
    simp [ResumeParserFramework.parse_resume, h0]
  · intro e h0 h1
    simp [ResumeParserFramework.parse_resume, h0, h1, wrapRead]
  · intro text e h0 h1 h2
    simp [ResumeParserFramework.parse_resume, h0, h1, h2, wrapExtract]
  · intro e₁ e₂ h
    exact take22_msg_ne e₁.msg e₂.msg (congrArg PyExc.msg h)

theorem framework_stage_errors_witness :
    ResumeParserFramework.parse_resume true (fun _ => .error ⟨"ValueError", "bad pdf"⟩)
        ⟨[]⟩ "r.pdf" =
      (.error ⟨"Exception", "Failed to parse file: bad pdf"⟩, ["read"]) :=
  (framework_stage_errors true _ ⟨[]⟩ "r.pdf").2.1 ⟨"ValueError", "bad pdf"⟩ rfl rfl

/-- C10: the reserved-key invariant of the registry is enforced only at
construction: `remove_extractor` succeeds on any present key (reserved
keys included) and raises `KeyError` only on absent keys;
`add_extractor` upserts, so it can overwrite a reserved key with an
arbitrary extractor; and after deleting `"name"`, `extract` on non-empty
text raises the wrapped extraction-failure error coming from the
missing-key lookup (`KeyError: 'name'`) instead of returning a record. -/
theorem registry_reserved_keys_not_protected
    (reg : List (String × Extractor)) (k : String) (ex : Extractor) (text : String) :
    (dictHasKey reg k = true →
      ResumeExtractor.remove_extractor ⟨reg⟩ k = .ok ⟨dictDel reg k⟩) ∧
    (dictHasKey reg k = false →
      ResumeExtractor.remove_extractor ⟨reg⟩ k =
        .error ⟨"KeyError", "Field extractor '" ++ k ++ "' not found"⟩) ∧
    (dictGet? (ResumeExtractor.add_extractor ⟨reg⟩ k ex).field_extractors k = some ex) ∧
    (pyStrip text ≠ "" →
      (ResumeExtractor.extract ⟨dictDel reg "name"⟩ text).1 =
        .error ⟨"Exception", "Failed to extract resume data: 'name'"⟩) := by
  refine ⟨?_, ?_, ?_, ?_⟩
  · intro h
    simp [ResumeExtractor.remove_extractor, h]
  · intro h
    simp [ResumeExtractor.remove_extractor, h]
  · simpa [ResumeExtractor.add_extractor] using dictGet?_dictSet reg k ex
  · intro h0
    simp [ResumeExtractor.extract, h0, dictGet?_dictDel, wrapExtract, keyErr]

theorem registry_reserved_keys_not_protected_witness :
    ResumeExtractor.remove_extractor
        ⟨[("name", fun _ => .ok (.str "N")), ("email", fun _ => .ok (.str "E")),
          ("skills", fun _ => .ok (.list []))]⟩ "name" =
      .ok ⟨[("email", fun _ => .ok (.str "E")), ("skills", fun _ => .ok (.list []))]⟩ ∧
    (ResumeExtractor.extract
        ⟨dictDel [("name", (fun _ => .ok (.str "N") : Extractor)),
                  ("email", fun _ => .ok (.str "E")),
                  ("skills", fun _ => .ok (.list []))] "name"⟩ "hi").1 =
      .error ⟨"Exception", "Failed to extract resume data: 'name'"⟩ :=
  ⟨(registry_reserved_keys_not_protected _ "name" (fun _ => .ok (.str "N")) "hi").1 rfl,
   (registry_reserved_keys_not_protected _ "name" (fun _ => .ok (.str "N")) "hi").2.2.2
     (by decide)⟩

/-- C5 (amended): `PDFParser.parse` checks existence and the `.pdf`
extension itself (raising `FileNotFoundError` resp. `ValueError`), joins
the texts of the pages in document order skipping pages that yield no
text, and when the joined text strips to empty raises the fixed
empty-document error — which, because the internal `ValueError` is raised
inside the same `try` block, is caught and re-wrapped by the same handler
as decode failures, so it is the same generic wrapped error class,
distinguished from decode failures only by its message text. -/
theorem pdf_parse_contract (pe : Bool) (path suffix : String)
    (pp : Except String (List (Option String))) :
    (pe = false →
      PDFParser.parse pe path suffix pp =
        .error ⟨"FileNotFoundError", "PDF file not found: " ++ path⟩) ∧
    (pe = true → pyLower suffix ≠ ".pdf" →
      PDFParser.parse pe path suffix pp = .error ⟨"ValueError", "File is not a PDF: " ++ path⟩) ∧
    (∀ m, pe = true → pyLower suffix = ".pdf" → pp = .error m →
      PDFParser.parse pe path suffix pp =
        .error ⟨"Exception", "Failed to parse PDF file: " ++ m⟩) ∧
    (∀ pages, pe = true → pyLower suffix = ".pdf" → pp = .ok pages →
      (pyStrip (joinNl (pages.filterMap
          (fun page_text => match page_text with
            | some t => if t.isEmpty then none else some t
            | none => none))) = "" →
        PDFParser.parse pe path suffix pp =
          .error ⟨"Exception",
            "Failed to parse PDF file: PDF appears to be empty or contains no extractable text"⟩) ∧
      (pyStrip (joinNl (pages.filterMap
          (fun page_text => match page_text with
            | some t => if t.isEmpty then none else some t
            | none => none))) ≠ "" →
        PDFParser.parse pe path suffix pp =
          .ok (joinNl (pages.filterMap
            (fun page_text => match page_text with
              | some t => if t.isEmpty then none else some t
              | none => none))))) := by
  refine ⟨?_, ?_, ?_, ?_⟩
  · intro h0
    simp [PDFParser.parse, h0]
  · intro h0 h1
    simp [PDFParser.parse, h0, h1]
  · intro m h0 h1 h2
    simp [PDFParser.parse, h0, h1, h2]
  · intro pages h0 h1 h2
    constructor
    · intro hempty
      simp [PDFParser.parse, h0, h1, h2, hempty]
    · intro hne
      simp [PDFParser.parse, h0, h1, h2, hne]

theorem pdf_parse_contract_witness :
    PDFParser.parse true "cv.pdf" ".pdf" (.ok [none, some "", some "Hello", some "World"]) =
      .ok "Hello\nWorld" :=
  ((pdf_parse_contract true "cv.pdf" ".pdf" _).2.2.2
    [none, some "", some "Hello", some "World"] rfl (by decide) rfl).2 (by decide)

/-- C5 counterexample: the empty-document failure is *not* distinct from
the wrapped decode failure — a decode failure carrying the same message
yields the identical error value (same class `Exception`, same text),
because the internal empty-document `ValueError` is caught by the same
`except` handler that wraps decode failures. -/
theorem pdf_empty_equals_decode_failure :
    PDFParser.parse true "cv.pdf" ".pdf" (.ok [none, some ""]) =
        PDFParser.parse true "cv.pdf" ".pdf"
          (.error "PDF appears to be empty or contains no extractable text") ∧
    PDFParser.parse true "cv.pdf" ".pdf" (.ok [none, some ""]) =
      .error ⟨"Exception",
        "Failed to parse PDF file: PDF appears to be empty or contains no extractable text"⟩ :=
  ⟨rfl, rfl⟩

/-- Appending-fold equals filter: the accumulator loop of
`_fallback_extraction`. -/
theorem foldl_append_filter (p : α → Bool) (l : List α) (acc : List α) :
    l.foldl (fun acc x => if p x then acc ++ [x] else acc) acc = acc ++ l.filter p := by
  induction l generalizing acc with
  | nil => simp
  | cons a t ih =>
      by_cases h : p a
      · simp [h, ih]
      · simp [h, ih]

/-- C4: when the remote model call raises, `SkillsExtractor.extract` does
not propagate the failure: it emits exactly one warning naming the cause
and returns the local fallback, which is exactly the catalogue entries
whose lowercase form occurs as a substring of the lowercased text, in
catalogue order and spelled as in the catalogue; in particular for a text
containing "Python, JavaScript, and Machine Learning" the result contains
"Python" and "Machine Learning". -/
theorem skills_remote_failure_falls_back (text m : String) (h : pyStrip text ≠ "") :
    SkillsExtractor.extract text (.raises m) =
      (common_skills.filter
        (fun skill => listIsSubOf (pyLower skill).data (pyLower text).data),
       ["Warning: Gemini API call failed: " ++ m]) ∧
    "Python" ∈
      (SkillsExtractor.extract "I know Python, JavaScript, and Machine Learning"
        (.raises m)).1 ∧
    "Machine Learning" ∈
      (SkillsExtractor.extract "I know Python, JavaScript, and Machine Learning"
        (.raises m)).1 := by
  have hfb : ∀ t : String, SkillsExtractor.fallback_extraction t =
      common_skills.filter (fun skill => listIsSubOf (pyLower skill).data (pyLower t).data) := by
    intro t
    simpa using foldl_append_filter
      (fun skill => listIsSubOf (pyLower skill).data (pyLower t).data) common_skills []
  refine ⟨?_, ?_, ?_⟩
  · simp [SkillsExtractor.extract, h, hfb]
  · have : (SkillsExtractor.extract "I know Python, JavaScript, and Machine Learning"
        (.raises m)).1 = ["Python", "Java", "JavaScript", "Machine Learning"] := by
      simp [SkillsExtractor.extract, (by decide :
        pyStrip "I know Python, JavaScript, and Machine Learning" ≠ ""), hfb]
      decide
    rw [this]
    decide
  · have : (SkillsExtractor.extract "I know Python, JavaScript, and Machine Learning"
        (.raises m)).1 = ["Python", "Java", "JavaScript", "Machine Learning"] := by
      simp [SkillsExtractor.extract, (by decide :
        pyStrip "I know Python, JavaScript, and Machine Learning" ≠ ""), hfb]
      decide
    rw [this]
    decide

theorem skills_remote_failure_falls_back_witness :
    SkillsExtractor.extract "I know Python, JavaScript, and Machine Learning"
        (.raises "quota exceeded") =
      (["Python", "Java", "JavaScript", "Machine Learning"],
       ["Warning: Gemini API call failed: quota exceeded"]) := by
  have h := (skills_remote_failure_falls_back
    "I know Python, JavaScript, and Machine Learning" "quota exceeded" (by decide)).1
  rw [h]
  decide

/-- Taking while `p` holds stops exactly at the first failing element. -/
theorem takeWhile_append_cons (p : α → Bool) (a : List α) (c : α) (t : List α)
    (ha : ∀ x ∈ a, p x = true) (hc : p c = false) :
    (a ++ c :: t).takeWhile p = a := by
  induction a with
  | nil => simp [List.takeWhile_cons, hc]
  | cons x xs ih =>
      have hx : p x = true := ha x (by simp)
      simp only [List.cons_append, List.takeWhile_cons, hx, if_true]
      rw [ih (fun y hy => ha y (by simp [hy]))]

/-- If `a` occurs in `l`, dropping while `≠ a` lands on an occurrence. -/
theorem dropWhile_ne_head (l : List Char) (a : Char) (h : l.contains a = true) :
    ∃ post, l.dropWhile (fun d => d ≠ a) = a :: post := by
  rw [List.elem_iff] at h
  induction l with
  | nil => cases h
  | cons x xs ih =>
      by_cases hx : x = a
      · subst hx
        exact ⟨xs, by simp [List.dropWhile_cons]⟩
      · rcases List.mem_cons.mp h with h1 | h1
        · exact absurd h1.symm hx
        · obtain ⟨post, hp⟩ := ih h1
          refine ⟨post, ?_⟩
          rw [List.dropWhile_cons, if_pos (by simp [hx]), hp]

/-- The bracket search succeeds exactly on texts of the form
`pre ++ '[' ++ mid ++ ']' ++ post` with no `[` before the first bracket
and no `]` inside, and then returns `'[' ++ mid ++ ']'`. -/
theorem findBracket_some_iff (cs sub : List Char) :
    findBracket cs = some sub ↔
      ∃ pre mid post, cs = pre ++ '[' :: (mid ++ ']' :: post) ∧
        '[' ∉ pre ∧ ']' ∉ mid ∧ sub = '[' :: (mid ++ [']']) := by
  constructor
  · intro h
    induction cs with
    | nil => simp [findBracket] at h
    | cons c rest ih =>
        by_cases hc : c = '['
        · subst hc
          by_cases hb : rest.contains ']' = true
          · rw [findBracket, if_pos rfl, if_pos hb] at h
            obtain ⟨post, hpost⟩ := dropWhile_ne_head rest ']' hb
            refine ⟨[], rest.takeWhile (fun d => d ≠ ']'), post, ?_, by simp, ?_,
              (Option.some.injEq _ _ ▸ h).symm⟩
            · simp only [List.nil_append, List.cons.injEq, true_and]
              conv_lhs => rw [← rest.takeWhile_append_dropWhile (p := fun d => decide (d ≠ ']'))]
              rw [hpost]
            · intro hmem
              have := List.mem_takeWhile_imp hmem
              simp at this
          · rw [findBracket, if_pos rfl, if_neg hb] at h
            cases h
        · rw [findBracket, if_neg hc] at h
          obtain ⟨pre, mid, post, hcs, hpre, hmid, hsub⟩ := ih h
          refine ⟨c :: pre, mid, post, by simp [hcs], ?_, hmid, hsub⟩
          intro hm
          rcases List.mem_cons.mp hm with h1 | h1
          · exact hc h1.symm
          · exact hpre h1
  · rintro ⟨pre, mid, post, hcs, hpre, hmid, hsub⟩
    subst hcs hsub
    induction pre with
    | nil =>
        have hb : (mid ++ ']' :: post).contains ']' = true := by
          rw [List.elem_iff]
          simp
        have ht : (mid ++ ']' :: post).takeWhile (fun d => d ≠ ']') = mid := by
          refine takeWhile_append_cons _ mid ']' post ?_ (by simp)
          intro x hx
          simp only [decide_eq_true_eq, ne_eq]
          exact fun hxe => hmid (hxe ▸ hx)
        rw [List.nil_append, findBracket, if_pos rfl, if_pos hb, ht]
    | cons p0 pre' ih =>
        have hp0 : p0 ≠ '[' := fun he => hpre (by simp [he])
        have hpre' : '[' ∉ pre' := fun hm => hpre (by simp [hm])
        rw [List.cons_append, findBracket, if_neg hp0]
        exact ih hpre'

/-- C6: `_parse_skills_from_response` locates the first non-greedy
`[...]` bracketed substring (the match starts at the first `[` and ends at
the first `]` after it; `re.DOTALL` lets it span newlines), decodes it
with `json.loads`, and returns only the truthy entries ("non-empty":
`null`, `false`, zero, empty strings/containers are dropped), each coerced
with `str(...)` and stripped of surrounding whitespace; when no bracketed
substring exists, or decoding fails, or the decoded value is not an
array, it returns the empty sequence instead of raising. -/
theorem skills_parse_response_contract (response_text : String) :
    (∀ sub : List Char, findBracket response_text.data = some sub ↔
      ∃ pre mid post, response_text.data = pre ++ '[' :: (mid ++ ']' :: post) ∧
        '[' ∉ pre ∧ ']' ∉ mid ∧ sub = '[' :: (mid ++ [']'])) ∧
    (findBracket response_text.data = none →
      SkillsExtractor.parse_skills_from_response response_text = []) ∧
    (∀ sub, findBracket response_text.data = some sub →
      (pyJsonLoads (String.mk sub) = none →
        SkillsExtractor.parse_skills_from_response response_text = []) ∧
      (∀ v, pyJsonLoads (String.mk sub) = some v → (∀ xs, v ≠ .list xs) →
        SkillsExtractor.parse_skills_from_response response_text = []) ∧
      (∀ xs, pyJsonLoads (String.mk sub) = some (.list xs) →
        SkillsExtractor.parse_skills_from_response response_text =
          (xs.filter pyTruthy).map (fun skill => pyStrip (pyStr skill)))) := by
  refine ⟨fun sub => findBracket_some_iff _ sub, ?_, ?_⟩
  · intro h
    simp [SkillsExtractor.parse_skills_from_response, h]
  · intro sub hsub
    refine ⟨?_, ?_, ?_⟩
    · intro hload
      simp [SkillsExtractor.parse_skills_from_response, hsub, hload]
    · intro v hload hnl
      cases v with
      | list xs => exact absurd rfl (hnl xs)
      | _ => simp [SkillsExtractor.parse_skills_from_response, hsub, hload]
    · intro xs hload
      simp [SkillsExtractor.parse_skills_from_response, hsub, hload]

theorem skills_parse_response_contract_witness :
    SkillsExtractor.parse_skills_from_response "skills: [\"Python\", 0, \" Go \"] ok" =
      ["Python", "Go"] := by
  have h := ((skills_parse_response_contract "skills: [\"Python\", 0, \" Go \"] ok").2.2
    ("[\"Python\", 0, \" Go \"]".data) rfl).2.2
    [.str "Python", .int 0, .str " Go "] rfl
  rw [h]
  rfl

/-- The scan of `re.findall` returns the match of the first position that
matches at all: no earlier start position admits a match. -/
theorem emailScan_leftmost (cs m : List Char) (h : emailScan cs = some m) :
    ∃ i, emailMatchAt (cs.drop i) = some m ∧ ∀ j < i, emailMatchAt (cs.drop j) = none := by
  induction cs with
  | nil => simp [emailScan] at h
  | cons c rest ih =>
      cases hm : emailMatchAt (c :: rest) with
      | some m' =>
          simp only [emailScan, hm, Option.some.injEq] at h
          exact ⟨0, by simpa [hm] using congrArg some h, by omega⟩
      | none =>
          simp only [emailScan, hm] at h
          obtain ⟨i, hi, hj⟩ := ih h
          refine ⟨i + 1, by simpa using hi, ?_⟩
          intro j hji
          cases j with
          | zero => simpa using hm
          | succ j' => simpa using hj j' (by omega)

/-- A successful anchored match yields a string that fully matches the
email grammar: local part, `@`, domain, dot, TLD of ≥ 2 letters. -/
theorem emailGrammar_of_parts (a dom b : List Char)
    (ha_ne : a ≠ []) (ha_all : ∀ x ∈ a, isEmailA x = true)
    (hb_all : ∀ x ∈ b, isEmailB x = true) (hdom : emailDomTry b = some dom) :
    emailGrammar (String.mk (a ++ '@' :: dom)) = true := by
  obtain ⟨k, _, hk⟩ := List.exists_of_findSome?_eq_some hdom
  simp only at hk
  split_ifs at hk with hcond htld
  · obtain ⟨hk1, hkdot⟩ := hcond
    have hdomeq : dom = b.take k ++ '.' :: (b.drop (k + 1)).takeWhile isAlphaA :=
      (Option.some.injEq _ _ ▸ hk).symm
    subst hdomeq
    have hklen : k < b.length := (List.get?_eq_some.mp hkdot).1
    have htake : (a ++ '@' :: (b.take k ++ '.' :: (b.drop (k + 1)).takeWhile isAlphaA)).takeWhile
        isEmailA = a :=
      takeWhile_append_cons _ a '@' _ (fun x hx => ha_all x hx) (by decide)
    simp only [emailGrammar, htake, List.drop_left]
    have hrev : ('@' :: (b.take k ++ '.' :: (b.drop (k + 1)).takeWhile isAlphaA) :
        List Char) = '@' :: (b.take k ++ '.' :: (b.drop (k + 1)).takeWhile isAlphaA) := rfl
    simp only [List.reverse_append, List.reverse_cons, List.append_assoc, List.nil_append,
      List.singleton_append]
    have htld_all : ∀ x ∈ ((b.drop (k + 1)).takeWhile isAlphaA).reverse, isAlphaA x = true := by
      intro x hx
      exact List.mem_takeWhile_imp (List.mem_reverse.mp hx)
    have ht2 : (((b.drop (k + 1)).takeWhile isAlphaA).reverse ++
        '.' :: (b.take k).reverse).takeWhile isAlphaA =
        ((b.drop (k + 1)).takeWhile isAlphaA).reverse :=
      takeWhile_append_cons _ _ '.' _ htld_all (by decide)
    simp only [ht2, List.drop_left, List.length_reverse]
    have hane : a.isEmpty = false := by
      cases a with
      | nil => exact absurd rfl ha_ne
      | cons x xs => rfl
    have hlen : (b.take k).length = k := by
      rw [List.length_take]
      omega
    have hbk : ((b.take k).reverse).isEmpty = false := by
      cases hrk : (b.take k).reverse with
      | nil =>
          have : (b.take k).length = 0 := by
            have := congrArg List.length hrk
            simpa using this
          omega
      | cons x xs => rfl
    have hall : ((b.take k).reverse).all isEmailB = true := by
      rw [List.all_reverse, List.all_eq_true]
      intro x hx
      exact hb_all x (List.take_subset k b hx)
    simp [hane, htld, hbk, hall]

/-- Any string returned by the anchored matcher fully matches the email
grammar. -/
theorem emailMatchAt_grammar (cs m : List Char) (h : emailMatchAt cs = some m) :
    emailGrammar (String.mk m) = true := by
  simp only [emailMatchAt] at h
  split_ifs at h with ha
  split at h
  next rest heq =>
    split at h
    next dom hdom =>
        have hm : m = cs.takeWhile isEmailA ++ '@' :: dom :=
          (Option.some.injEq _ _ ▸ h).symm
        subst hm
        refine emailGrammar_of_parts _ _ (rest.takeWhile isEmailB) ?_ ?_ ?_ hdom
        · intro hnil
          rw [hnil] at ha
          exact ha rfl
        · intro x hx
          exact List.mem_takeWhile_imp hx
        · intro x hx
          exact List.mem_takeWhile_imp hx
    next => cases h
  next => cases h

/-- C8: `EmailExtractor.extract` returns the sentinel
`unknown@example.com` on empty/whitespace-only input and when no match
exists; otherwise it returns the match found at the first (leftmost) scan
position that matches, that result fully matches the
local-part`@`domain`.`TLD(≥ 2 letters) grammar, and the extractor is a
total function (it never raises); for the scenario text it returns
`john.doe@example.com`. -/
theorem email_extract_contract (text : String) :
    (pyStrip text = "" → emailExtract text = "unknown@example.com") ∧
    (emailScan text.data = none → emailExtract text = "unknown@example.com") ∧
    (∀ m, pyStrip text ≠ "" → emailScan text.data = some m →
      emailExtract text = String.mk m ∧
      emailGrammar (String.mk m) = true ∧
      ∃ i, emailMatchAt (text.data.drop i) = some m ∧
        ∀ j < i, emailMatchAt (text.data.drop j) = none) ∧
    emailExtract "Contact me at john.doe@example.com for more info" = "john.doe@example.com" := by
  refine ⟨?_, ?_, ?_, by decide⟩
  · intro h
    simp [emailExtract, h]
  · intro h
    by_cases h0 : pyStrip text = ""
    · simp [emailExtract, h0]
    · simp [emailExtract, h0, h]
  · intro m h0 h1
    refine ⟨by simp [emailExtract, h0, h1], ?_, emailScan_leftmost _ _ h1⟩
    obtain ⟨i, hi, _⟩ := emailScan_leftmost _ _ h1
    exact emailMatchAt_grammar _ _ hi

theorem email_extract_contract_witness :
    emailExtract "Contact me at john.doe@example.com for more info" =
      String.mk "john.doe@example.com".data ∧
    emailGrammar "john.doe@example.com" = true := by
  have h := (email_extract_contract "Contact me at john.doe@example.com for more info").2.2.1
    "john.doe@example.com".data (by decide) (by rfl)
  exact ⟨h.1, h.2.1⟩

/-- A whitespace character is unchanged by lowercasing. -/
theorem pyLowerChar_ws (c : Char) (h : pyWs c = true) : pyLowerChar c = c := by
  simp only [pyWs, Bool.or_eq_true, decide_eq_true_eq] at h
  rcases h with ((((h | h) | h) | h) | h) | h <;> subst h <;> decide

/-- If the stripped string is empty, every character is whitespace. -/
theorem all_ws_of_pyStrip_empty (s : String) (h : pyStrip s = "") :
    ∀ c ∈ s.data, pyWs c = true := by
  unfold pyStrip at h
  have hd : ((s.data.dropWhile pyWs).reverse.dropWhile pyWs).reverse = [] :=
    congrArg String.data h
  rw [List.reverse_eq_nil_iff, List.dropWhile_eq_nil_iff] at hd
  have h1 : ∀ c ∈ s.data.dropWhile pyWs, pyWs c = true := by
    intro c hc
    exact hd c (List.mem_reverse.mpr hc)
  intro c hc
  rw [← s.data.takeWhile_append_dropWhile (p := pyWs)] at hc
  rcases List.mem_append.mp hc with h2 | h2
  · exact List.mem_takeWhile_imp h2
  · exact h1 c h2

/-- If every character is whitespace, the strip is empty. -/
theorem pyStrip_eq_empty_of_all_ws (s : String) (h : ∀ c ∈ s.data, pyWs c = true) :
    pyStrip s = "" := by
  unfold pyStrip
  rw [List.dropWhile_eq_nil_iff.mpr h]
  rfl

/-- Splitting an all-whitespace text produces all-whitespace lines. -/
theorem splitNlAux_all_ws (cs : List Char) (acc : List Char)
    (hcs : ∀ c ∈ cs, pyWs c = true) (hacc : ∀ c ∈ acc, pyWs c = true) :
    ∀ l ∈ splitNlAux cs acc, ∀ c ∈ l.data, pyWs c = true := by
  induction cs generalizing acc with
  | nil =>
      intro l hl c hc
      simp only [splitNlAux, List.mem_singleton] at hl
      subst hl
      exact hacc c (List.mem_reverse.mp hc)
  | cons x rest ih =>
      intro l hl c hc
      have hrest : ∀ d ∈ rest, pyWs d = true := fun d hd => hcs d (by simp [hd])
      by_cases hx : x = '\n'
      · simp only [splitNlAux, hx, if_pos rfl] at hl
        rcases List.mem_cons.mp hl with h1 | h1
        · subst h1
          exact hacc c (List.mem_reverse.mp hc)
        · exact ih [] hrest (by simp) l h1 c hc
      · simp only [splitNlAux, if_neg hx] at hl
        have hacc' : ∀ d ∈ x :: acc, pyWs d = true := by
          intro d hd
          rcases List.mem_cons.mp hd with h1 | h1
          · subst h1
            exact hcs d (by simp)
          · exact hacc d h1
        exact ih (x :: acc) hrest hacc' l hl c hc

/-- Whitespace-only text has no non-empty stripped lines. -/
theorem neLines_nil_of_strip_empty (text : String) (h : pyStrip text = "") :
    neLines text = [] := by
  unfold neLines splitNl
  rw [List.filter_eq_nil_iff]
  intro l hl
  rcases List.mem_map.mp hl with ⟨l0, hl0, hstrip⟩
  have hall := splitNlAux_all_ws text.data [] (all_ws_of_pyStrip_empty text h) (by simp) l0 hl0
  simp only [decide_not, Bool.not_eq_true', decide_eq_false_iff_not, Decidable.not_not]
  rw [← hstrip]
  exact pyStrip_eq_empty_of_all_ws l0 hall

theorem emailLikeSearch_of_tail (c : Char) (rest : List Char)
    (h : emailLikeSearch rest = true) : emailLikeSearch (c :: rest) = true := by
  simp [emailLikeSearch, h]

theorem emailLikeSearch_of_at_mem (cs : List Char) (h : '@' ∈ cs) :
    emailLikeSearch cs = true := by
  induction cs with
  | nil => cases h
  | cons c rest ih =>
      rcases List.mem_cons.mp h with h1 | h1
      · simp [emailLikeSearch, h1.symm]
      · exact emailLikeSearch_of_tail c rest (ih h1)

theorem dropWhile_append_all (p : α → Bool) (a t : List α) (ha : ∀ x ∈ a, p x = true) :
    (a ++ t).dropWhile p = t.dropWhile p := by
  induction a with
  | nil => rfl
  | cons x xs ih =>
      have hx : p x = true := ha x (by simp)
      simp only [List.cons_append, List.dropWhile_cons, hx, if_true]
      exact ih (fun y hy => ha y (by simp [hy]))

theorem head_not_ws_of_lower_eq (k0 d : Char) (hd : pyWs d = false)
    (hlow : pyLowerChar k0 = d) : pyWs k0 = false := by
  by_cases hws : pyWs k0 = true
  · rw [pyLowerChar_ws k0 hws] at hlow
    rw [hlow] at hws
    rw [hws] at hd
    cases hd
  · simpa using hws

theorem kw_head_not_ws (kw : List Char) (kw0 : String)
    (hkw0 : kw0 ∈ (["gmail", "yahoo", "hotmail", "outlook", "mail", "email"] : List String))
    (heq : kw.map pyLowerChar = kw0.data) :
    ∃ k0 kt, kw = k0 :: kt ∧ pyWs k0 = false := by
  fin_cases hkw0 <;>
    (cases kw with
     | nil => simp at heq
     | cons k0 kt =>
         refine ⟨k0, kt, rfl, ?_⟩
         simp only [List.map_cons] at heq
         exact head_not_ws_of_lower_eq k0 _ (by decide) (List.head_eq_of_cons_eq heq))

theorem kwAhead_of_eq (kw post : List Char) (kw0 : String)
    (hkw0 : kw0 ∈ (["gmail", "yahoo", "hotmail", "outlook", "mail", "email"] : List String))
    (heq : kw.map pyLowerChar = kw0.data) :
    kwAhead (kw ++ post) = true := by
  unfold kwAhead
  rw [List.any_eq_true]
  refine ⟨kw0, hkw0, ?_⟩
  rw [List.map_append, ← heq]
  exact List.isPrefixOf_iff_prefix.mpr (List.prefix_append _ _)

/-- `re.search` of the email-like filter succeeds exactly when the line
contains `@`, or a character of the local-part class followed (after a
whitespace run) by one of the provider keywords, case-insensitively. -/
theorem emailLikeSearch_iff (cs : List Char) :
    emailLikeSearch cs = true ↔
      ('@' ∈ cs ∨ ∃ pre c ws kw post,
        cs = pre ++ c :: (ws ++ (kw ++ post)) ∧ isEmailA c = true ∧
        (∀ x ∈ ws, pyWs x = true) ∧
        (∃ kw0 ∈ (["gmail", "yahoo", "hotmail", "outlook", "mail", "email"] : List String),
          kw.map pyLowerChar = kw0.data)) := by
  constructor
  · intro h
    induction cs with
    | nil => simp [emailLikeSearch] at h
    | cons c rest ih =>
        simp only [emailLikeSearch, Bool.or_eq_true, Bool.and_eq_true,
          decide_eq_true_eq] at h
        rcases h with (hAt | ⟨hcls, hkwa⟩) | htail
        · exact Or.inl (by simp [hAt])
        · right
          unfold kwAhead at hkwa
          rw [List.any_eq_true] at hkwa
          obtain ⟨kw0, hkw0, hpre⟩ := hkwa
          obtain ⟨t, ht⟩ := List.isPrefixOf_iff_prefix.mp hpre
          refine ⟨[], c, rest.takeWhile pyWs,
            (rest.dropWhile pyWs).take kw0.data.length,
            (rest.dropWhile pyWs).drop kw0.data.length, ?_, hcls, ?_, kw0, hkw0, ?_⟩
          · simp only [List.nil_append, List.cons.injEq, true_and]
            rw [List.take_append_drop, rest.takeWhile_append_dropWhile]
          · intro x hx
            exact List.mem_takeWhile_imp hx
          · rw [List.map_take, ← ht, List.take_append_of_le_length (le_refl _),
              List.take_length]
        · rcases ih htail with hAt | ⟨pre, c', ws, kw, post, hrest, hA, hws, hkw⟩
          · exact Or.inl (by simp [hAt])
          · exact Or.inr ⟨c :: pre, c', ws, kw, post, by simp [hrest], hA, hws, hkw⟩
  · rintro (h | ⟨pre, c, ws, kw, post, hcs, hA, hws, kw0, hkw0, heq⟩)
    · exact emailLikeSearch_of_at_mem cs h
    · subst hcs
      induction pre with
      | nil =>
          obtain ⟨k0, kt, hkweq, hk0⟩ := kw_head_not_ws kw kw0 hkw0 heq
          have hdrop : ((ws ++ (kw ++ post)).dropWhile pyWs) = kw ++ post := by
            rw [dropWhile_append_all pyWs ws _ hws, hkweq, List.cons_append,
              List.dropWhile_cons, if_neg (by simp [hk0])]
          simp only [List.nil_append, emailLikeSearch, Bool.or_eq_true, Bool.and_eq_true]
          refine Or.inl (Or.inr ⟨hA, ?_⟩)
          rw [hdrop]
          exact kwAhead_of_eq kw post kw0 hkw0 heq
      | cons p pre' ihp =>
          exact emailLikeSearch_of_tail p _ ihp

/-- The per-line loop returns the line at the first index whose line
matches either pattern. -/
theorem findNameLine_at (ls : List String) (i : Nat) (h : i < ls.length)
    (hbefore : ∀ j, (hj : j < i) → strictMatch (ls.get ⟨j, Nat.lt_trans hj h⟩) = false ∧
      looseMatch (ls.get ⟨j, Nat.lt_trans hj h⟩) = false)
    (hmatch : strictMatch (ls.get ⟨i, h⟩) = true ∨ looseMatch (ls.get ⟨i, h⟩) = true) :
    findNameLine ls = some (ls.get ⟨i, h⟩) := by
  induction ls generalizing i with
  | nil => simp at h
  | cons l rest ih =>
      cases i with
      | zero =>
          rcases hmatch with hm | hm
          · simp only [List.get] at hm ⊢
            simp [findNameLine, hm]
          · by_cases hs : strictMatch l = true
            · simp only [List.get] at hm ⊢
              simp [findNameLine, hs]
            · simp only [List.get] at hm ⊢
              simp [findNameLine, hs, hm]
      | succ i' =>
          have h0 := hbefore 0 (Nat.succ_pos i')
          simp only [List.get] at h0 ⊢
          rw [findNameLine, if_neg (by simp [h0.1]), if_neg (by simp [h0.2])]
          exact ih i' (Nat.lt_of_succ_lt_succ h)
            (fun j hj => hbefore (j + 1) (Nat.succ_lt_succ hj))
            hmatch

/-- C3 (amended): `NameExtractor.extract` tries, for each of the first 5
non-empty trimmed lines in order, the strict 2-to-4-capitalized-words
pattern and then the looser middle-initial pattern on that same line,
returning the first line that matches either pattern: precedence is
per-line, so a looser-pattern match on an earlier line wins over a
strict-pattern match on a later line (not the other way around, as the
two-pass reading would have it); for the scenario text the result is
`"John Doe"`. -/
theorem name_extract_per_line_order :
    (∀ (text : String) (i : Nat) (h : i < ((neLines text).take 5).length),
      pyStrip text ≠ "" →
      (∀ j, (hj : j < i) →
        strictMatch (((neLines text).take 5).get ⟨j, Nat.lt_trans hj h⟩) = false ∧
        looseMatch (((neLines text).take 5).get ⟨j, Nat.lt_trans hj h⟩) = false) →
      (strictMatch (((neLines text).take 5).get ⟨i, h⟩) = true ∨
        looseMatch (((neLines text).take 5).get ⟨i, h⟩) = true) →
      nameExtract text = ((neLines text).take 5).get ⟨i, h⟩) ∧
    nameExtract "John Doe\nEmail: john@example.com\nSkills: Python, Java" = "John Doe" := by
  constructor
  · intro text i h h0 hbefore hmatch
    have hne : (neLines text).isEmpty = false := by
      cases hnl : neLines text with
      | nil => rw [hnl] at h; simp at h
      | cons _ _ => rfl
    simp only [nameExtract]
    rw [if_neg h0, hne, findNameLine_at ((neLines text).take 5) i h hbefore hmatch]
    simp
  · decide

/-- C3 counterexample: on `"John D. Doe\nMary Smith"` the first line
matches only the looser pattern and the second line matches the strict
pattern, yet the extractor returns the first line — a strict-pattern
match on a later line does *not* take precedence over a looser-pattern
match on an earlier line, contradicting the claim's predicted result
`"Mary Smith"`. -/
theorem name_loose_beats_later_strict :
    nameExtract "John D. Doe\nMary Smith" = "John D. Doe" ∧
    strictMatch "John D. Doe" = false ∧
    looseMatch "John D. Doe" = true ∧
    strictMatch "Mary Smith" = true ∧
    ("John D. Doe" : String) ≠ "Mary Smith" := by decide

theorem name_extract_per_line_order_witness :
    nameExtract "Email: x\nJohn Doe\nz" = "John Doe" :=
  ((name_extract_per_line_order).1 "Email: x\nJohn Doe\nz" 1 (by decide) (by decide)
    (by decide) (by decide)).trans (by decide)

/-- C7: when no line among the first 5 matches either name pattern,
`NameExtractor.extract` takes the first non-empty line; if that line looks
email-like — it contains `@`, or a local-part-class character followed
(after optional whitespace) by one of
gmail/yahoo/hotmail/outlook/mail/email, case-insensitively
(the second conjunct characterises the filter) — it moves to the second
line if one exists and otherwise returns `"Unknown"`; the candidate is
then stripped of all characters except word characters, whitespace and
periods, whitespace runs are collapsed, and `"Unknown"` is returned when
the cleaned candidate has a run of 3+ digits, two separate periods, is
empty, or is longer than 50 characters — otherwise the cleaned candidate
is returned. -/
theorem name_extract_fallback_contract (text : String)
    (hnone : findNameLine ((neLines text).take 5) = none) :
    (nameExtract text =
      match neLines text with
      | [] => "Unknown"
      | l1 :: rest =>
          if emailLikeSearch l1.data then
            match rest with
            | [] => "Unknown"
            | l2 :: _ =>
                if rejectRe (collapseWs (cleanChars l2)) then "Unknown"
                else if (collapseWs (cleanChars l2)).length ≤ 50 ∧
                    0 < (collapseWs (cleanChars l2)).length then collapseWs (cleanChars l2)
                else "Unknown"
          else
            if rejectRe (collapseWs (cleanChars l1)) then "Unknown"
            else if (collapseWs (cleanChars l1)).length ≤ 50 ∧
                0 < (collapseWs (cleanChars l1)).length then collapseWs (cleanChars l1)
            else "Unknown") ∧
    (∀ cs : List Char, emailLikeSearch cs = true ↔
      ('@' ∈ cs ∨ ∃ pre c ws kw post,
        cs = pre ++ c :: (ws ++ (kw ++ post)) ∧ isEmailA c = true ∧
        (∀ x ∈ ws, pyWs x = true) ∧
        (∃ kw0 ∈ (["gmail", "yahoo", "hotmail", "outlook", "mail", "email"] : List String),
          kw.map pyLowerChar = kw0.data))) := by
  refine ⟨?_, fun cs => emailLikeSearch_iff cs⟩
  have hfb : ∀ l : String,
      (if rejectRe (collapseWs (cleanChars l)) then "Unknown"
       else if (collapseWs (cleanChars l)).length ≤ 50 ∧
           0 < (collapseWs (cleanChars l)).length then collapseWs (cleanChars l)
       else "Unknown") =
      (if rejectRe (collapseWs (cleanChars l)) then "Unknown"
       else if (collapseWs (cleanChars l)).length ≤ 50 &&
           decide (0 < (collapseWs (cleanChars l)).length) then collapseWs (cleanChars l)
       else "Unknown") := by
    intro l
    by_cases hr : rejectRe (collapseWs (cleanChars l)) = true
    · simp [hr]
    · by_cases hp : (collapseWs (cleanChars l)).length ≤ 50 ∧
          0 < (collapseWs (cleanChars l)).length
      · simp [hr, hp]
      · simp [hr, hp]
  by_cases h0 : pyStrip text = ""
  · rw [neLines_nil_of_strip_empty text h0]
    simp [nameExtract, h0]
  · cases hl : neLines text with
    | nil =>
        simp only [nameExtract, hl]
        rw [if_neg h0]
        simp
    | cons l1 rest =>
        simp only [nameExtract, hl]
        rw [if_neg h0]
        rw [hl] at hnone
        simp only [List.isEmpty_cons, hnone]
        unfold nameFallback
        by_cases he : emailLikeSearch l1.data = true
        · rw [if_pos he]
          cases rest with
          | nil => simp [he]
          | cons l2 rest' =>
              simp only [he, if_true]
              rw [hfb l2]
              simp
        · rw [if_neg he]
          simp only [Bool.not_eq_true] at he
          simp only [he, Bool.false_eq_true, if_false]
          rw [hfb l1]

theorem name_extract_fallback_contract_witness :
    nameExtract "john.doe@example.com\njane developer" = "jane developer" :=
  ((name_extract_fallback_contract "john.doe@example.com\njane developer"
    (by decide)).1).trans (by decide)

theorem hexVal_hexDigitChar : ∀ n, n < 16 → hexVal (hexDigitChar n) = some n := by decide

theorem parseStrBody_escChar (c : Char) (rest : List Char) :
    parseStrBody (escChar c ++ rest) = (parseStrBody rest).map (fun p => (c :: p.1, p.2)) := by
  by_cases h1 : c = '"'
  · subst h1; simp [escChar, parseStrBody, escDecode]
  · by_cases h2 : c = '\\'
    · subst h2; simp [escChar, parseStrBody, escDecode]
    · by_cases h3 : c = '\n'
      · subst h3; simp [escChar, parseStrBody, escDecode]
      · by_cases h4 : c = '\t'
        · subst h4; simp [escChar, parseStrBody, escDecode]
        · by_cases h5 : c = '\r'
          · subst h5; simp [escChar, parseStrBody, escDecode]
          · by_cases h6 : c = '\x08'
            · subst h6; simp [escChar, parseStrBody, escDecode]
            · by_cases h7 : c = '\x0c'
              · subst h7; simp [escChar, parseStrBody, escDecode]
              · by_cases h8 : c.toNat < 0x20
                · have hdiv : c.toNat / 16 < 16 := by omega
                  have hmod : c.toNat % 16 < 16 := by omega
                  simp only [escChar, h1, h2, h3, h4, h5, h6, h7, h8, if_false, if_true,
                    if_neg, if_pos, List.cons_append, List.nil_append]
                  simp only [parseStrBody, if_neg (by decide : ¬('\\' : Char) = '"'),
                    if_pos rfl]
                  simp only [if_true]
                  rw [show hexVal '0' = some 0 from rfl,
                      hexVal_hexDigitChar _ hdiv, hexVal_hexDigitChar _ hmod]
                  have hchar : Char.ofNat (c.toNat / 16 * 16 + c.toNat % 16) = c := by
                    have h9 : c.toNat / 16 * 16 + c.toNat % 16 = c.toNat := by omega
                    rw [h9, Char.ofNat_toNat]
                  simp [hchar]
                · have he : escChar c = [c] := by
                    simp [escChar, h1, h2, h3, h4, h5, h6, h7, h8]
                  rw [he, List.singleton_append, parseStrBody.eq_def]
                  simp [h1, h2]

/-- Decoding inverts encoding for a whole string body: the closing quote
is found right after the escaped characters. -/
theorem parseStrBody_enc (cs rest : List Char) :
    parseStrBody ((cs.map escChar).flatten ++ '"' :: rest) = some (cs, rest) := by
  induction cs with
  | nil =>
      simp only [List.map_nil, List.flatten_nil, List.nil_append]
      rw [parseStrBody.eq_def]
      simp
  | cons c cs' ih =>
      rw [List.map_cons, List.flatten_cons, List.append_assoc, parseStrBody_escChar, ih]
      rfl

theorem skipJWs_cons_not (c : Char) (cs : List Char) (h : isJWs c = false) :
    skipJWs (c :: cs) = c :: cs := by
  simp [skipJWs, List.dropWhile_cons, h]

theorem skipJWs_append_ws (a cs : List Char) (h : ∀ x ∈ a, isJWs x = true) :
    skipJWs (a ++ cs) = skipJWs cs :=
  dropWhile_append_all isJWs a cs h

theorem nSpaces_all_ws (n : Nat) : ∀ x ∈ nSpaces n, isJWs x = true := by
  intro x hx
  rw [List.eq_of_mem_replicate hx]
  rfl

/-- Parsing a value that is an encoded string, after any JSON whitespace:
one unit of fuel suffices. -/
theorem parseJ_value_str (fuel : Nat) (a : List Char) (ha : ∀ x ∈ a, isJWs x = true)
    (s : String) (rest : List Char) :
    parseJ (fuel + 1) .value (a ++ (encStr s ++ rest)) = some (.str s, rest) := by
  have h1 : skipJWs (a ++ (encStr s ++ rest)) =
      '"' :: ((s.data.map escChar).flatten ++ '"' :: rest) := by
    rw [skipJWs_append_ws a _ ha]
    show skipJWs (('"' :: ((s.data.map escChar).flatten ++ ['"'])) ++ rest) = _
    rw [List.cons_append, skipJWs_cons_not _ _ (by decide), List.append_assoc,
      List.singleton_append]
  rw [parseJ, h1]
  show (parseStrBody ((s.data.map escChar).flatten ++ '"' :: rest)).map
      (fun p => (PyVal.str (String.mk p.1), p.2)) = some (.str s, rest)
  rw [parseStrBody_enc]
  rfl

theorem skipJWs_nl_spaces (w : Nat) (cs : List Char) :
    skipJWs ('\n' :: (nSpaces w ++ cs)) = skipJWs cs := by
  show skipJWs (('\n' :: nSpaces w) ++ cs) = skipJWs cs
  refine skipJWs_append_ws _ _ ?_
  intro x hx
  rcases List.mem_cons.mp hx with h | h
  · subst h
    rfl
  · exact nSpaces_all_ws w x h

/-- Parsing the comma-separated items of a non-empty encoded skills array
(after any JSON whitespace `a`): two units of fuel per item suffice, and
the parse stops right after the closing bracket. -/
theorem parseJ_items_skills (w : Nat) :
    ∀ (xs : List String) (x : String) (n : Nat) (a rest : List Char),
    (∀ y ∈ a, isJWs y = true) →
    parseJ (n + 2 * (x :: xs).length) .items
      (a ++ (encSkillsItems w (x :: xs) ++ '\n' :: (nSpaces w ++ ']' :: rest))) =
      some (.list ((x :: xs).map .str), rest) := by
  intro xs
  induction xs with
  | nil =>
      intro x n a rest ha
      have hf : n + 2 * ([x] : List String).length = (n + 1) + 1 := by simp
      have haw : ∀ y ∈ a ++ nSpaces (2 * w), isJWs y = true := by
        intro y hy
        rcases List.mem_append.mp hy with h | h
        · exact ha y h
        · exact nSpaces_all_ws _ y h
      rw [hf, show encSkillsItems w [x] = nSpaces (2 * w) ++ encStr x from rfl,
        List.append_assoc (nSpaces (2 * w)), ← List.append_assoc a, parseJ,
        parseJ_value_str n (a ++ nSpaces (2 * w)) haw x
          ('\n' :: (nSpaces w ++ ']' :: rest))]
      have hskip : skipJWs ('\n' :: (nSpaces w ++ ']' :: rest)) = ']' :: rest := by
        rw [skipJWs_nl_spaces, skipJWs_cons_not _ _ (by decide)]
      simp [hskip]
  | cons x2 xs' ih =>
      intro x n a rest ha
      have hf : n + 2 * (x :: x2 :: xs' : List String).length =
          (n + 2 * (x2 :: xs' : List String).length + 1) + 1 := by
        simp only [List.length_cons]
        omega
      have haw : ∀ y ∈ a ++ nSpaces (2 * w), isJWs y = true := by
        intro y hy
        rcases List.mem_append.mp hy with h | h
        · exact ha y h
        · exact nSpaces_all_ws _ y h
      have hexp : encSkillsItems w (x :: x2 :: xs') =
          nSpaces (2 * w) ++ (encStr x ++ (',' :: '\n' :: encSkillsItems w (x2 :: xs'))) := by
        rw [show encSkillsItems w (x :: x2 :: xs') =
          nSpaces (2 * w) ++ encStr x ++ ',' :: '\n' :: encSkillsItems w (x2 :: xs') from rfl]
        exact List.append_assoc _ _ _
      rw [hf, hexp,
        List.append_assoc (nSpaces (2 * w)) (encStr x ++
          (',' :: '\n' :: encSkillsItems w (x2 :: xs'))) ('\n' :: (nSpaces w ++ ']' :: rest)),
        List.append_assoc (encStr x) (',' :: '\n' :: encSkillsItems w (x2 :: xs'))
          ('\n' :: (nSpaces w ++ ']' :: rest)),
        ← List.append_assoc a (nSpaces (2 * w)) _, parseJ,
        parseJ_value_str (n + 2 * (x2 :: xs' : List String).length) (a ++ nSpaces (2 * w)) haw x
          ((',' :: '\n' :: encSkillsItems w (x2 :: xs')) ++ ('\n' :: (nSpaces w ++ ']' :: rest)))]
      have hX2 : skipJWs ((',' :: '\n' :: encSkillsItems w (x2 :: xs')) ++
          ('\n' :: (nSpaces w ++ ']' :: rest))) =
          ',' :: ('\n' :: (encSkillsItems w (x2 :: xs') ++ '\n' :: (nSpaces w ++ ']' :: rest))) := by
        rw [List.cons_append, List.cons_append, skipJWs_cons_not _ _ (by decide)]
      have ihx := ih x2 (n + 1) ['\n'] rest (by
        intro y hy
        rcases List.mem_cons.mp hy with h | h
        · subst h
          rfl
        · cases h)
      rw [List.singleton_append] at ihx
      have hf2 : (n + 1) + 2 * (x2 :: xs' : List String).length =
          n + 2 * (x2 :: xs' : List String).length + 1 := by omega
      rw [hf2] at ihx
      have hX4 : skipJWs (',' :: '\n' :: (encSkillsItems w (x2 :: xs') ++
          '\n' :: (nSpaces w ++ ']' :: rest))) =
          ',' :: '\n' :: (encSkillsItems w (x2 :: xs') ++ '\n' :: (nSpaces w ++ ']' :: rest)) :=
        skipJWs_cons_not _ _ (by decide)
      have hf3 : n + 2 * (x2 :: xs' : List String).length + 1 =
          n + 2 * (xs'.length + 1) + 1 := by simp
      rw [hf3] at ihx
      simp [hX4, ihx]

theorem skipJWs_cons_ws (c : Char) (cs : List Char) (h : isJWs c = true) :
    skipJWs (c :: cs) = skipJWs cs := by
  simp [skipJWs, List.dropWhile_cons, h]

theorem skipJWs_idem (cs : List Char) : skipJWs (skipJWs cs) = skipJWs cs := by
  induction cs with
  | nil => rfl
  | cons x t ih =>
      by_cases hx : isJWs x = true
      · rw [show skipJWs (x :: t) = skipJWs t from by simp [skipJWs, List.dropWhile_cons, hx]]
        exact ih
      · rw [skipJWs_cons_not x t (by simpa using hx), skipJWs_cons_not x t (by simpa using hx)]

/-- The items mode looks at its input only through an initial
`skipJWs` (performed by the value parse of the first item). -/
theorem parseJ_items_skipJWs (f : Nat) (cs : List Char) :
    parseJ (f + 1) .items (skipJWs cs) = parseJ (f + 1) .items cs := by
  rw [parseJ, parseJ]
  cases f with
  | zero => rfl
  | succ f' => rw [parseJ, parseJ, skipJWs_idem]

theorem encSkillsItems_cons (w : Nat) (x : String) (xs : List String) :
    ∃ t, encSkillsItems w (x :: xs) = nSpaces (2 * w) ++ (encStr x ++ t) := by
  cases xs with
  | nil =>
      refine ⟨[], ?_⟩
      rw [show encSkillsItems w [x] = nSpaces (2 * w) ++ encStr x from rfl, List.append_nil]
  | cons x2 xs' =>
      refine ⟨',' :: '\n' :: encSkillsItems w (x2 :: xs'), ?_⟩
      rw [show encSkillsItems w (x :: x2 :: xs') =
        nSpaces (2 * w) ++ encStr x ++ ',' :: '\n' :: encSkillsItems w (x2 :: xs') from rfl]
      exact List.append_assoc _ _ _

set_option maxHeartbeats 2000000 in
/-- Parsing an encoded skills array as a value, after any JSON whitespace:
`2·|xs| + 2` units of fuel suffice. -/
theorem parseJ_value_skills (w : Nat) (xs : List String) (n : Nat) (a rest : List Char)
    (ha : ∀ y ∈ a, isJWs y = true) :
    parseJ (n + (2 * xs.length + 2)) .value (a ++ (encSkills w xs ++ rest)) =
      some (.list (xs.map .str), rest) := by
  cases xs with
  | nil =>
      have hf : n + (2 * ([] : List String).length + 2) = (n + 1) + 1 := by simp
      rw [hf, show encSkills w [] = ['[', ']'] from rfl, parseJ]
      have hsk : skipJWs (a ++ (['[', ']'] ++ rest)) = '[' :: (']' :: rest) := by
        rw [skipJWs_append_ws a _ ha]
        exact skipJWs_cons_not _ _ (by decide)
      rw [hsk]
      have hsk2 : skipJWs (']' :: rest) = ']' :: rest := skipJWs_cons_not _ _ (by decide)
      simp [hsk2]
  | cons x xs' =>
      have hf : n + (2 * (x :: xs' : List String).length + 2) =
          ((n + 1) + 2 * (x :: xs' : List String).length) + 1 := by
        simp only [List.length_cons]
        omega
      rw [hf, show encSkills w (x :: xs') =
        '[' :: '\n' :: (encSkillsItems w (x :: xs') ++ '\n' :: (nSpaces w ++ [']'])) from rfl,
        parseJ]
      obtain ⟨t, ht⟩ := encSkillsItems_cons w x xs'
      have hz : (encSkillsItems w (x :: xs') ++ '\n' :: (nSpaces w ++ [']'])) ++ rest =
          encSkillsItems w (x :: xs') ++ '\n' :: (nSpaces w ++ ']' :: rest) := by
        rw [List.append_assoc, List.cons_append, List.append_assoc, List.singleton_append]
      have hcs : skipJWs (a ++ (('[' :: '\n' ::
            (encSkillsItems w (x :: xs') ++ '\n' :: (nSpaces w ++ [']']))) ++ rest)) =
          '[' :: ('\n' :: (encSkillsItems w (x :: xs') ++ '\n' :: (nSpaces w ++ ']' :: rest))) := by
        rw [skipJWs_append_ws a _ ha, List.cons_append, List.cons_append, hz]
        exact skipJWs_cons_not _ _ (by decide)
      rw [hcs]
      have hval : skipJWs ('\n' :: (encSkillsItems w (x :: xs') ++
          '\n' :: (nSpaces w ++ ']' :: rest))) =
          '"' :: (((x.data.map escChar).flatten ++ ['"']) ++
            (t ++ '\n' :: (nSpaces w ++ ']' :: rest))) := by
        rw [skipJWs_cons_ws _ _ (by decide), ht,
          List.append_assoc, skipJWs_append_ws _ _ (nSpaces_all_ws _),
          List.append_assoc,
          show encStr x = '"' :: ((x.data.map escChar).flatten ++ ['"']) from rfl,
          List.cons_append]
        exact skipJWs_cons_not _ _ (by decide)
      have hback : parseJ ((n + 1) + 2 * (x :: xs' : List String).length) .items
          ('"' :: (((x.data.map escChar).flatten ++ ['"']) ++
            (t ++ '\n' :: (nSpaces w ++ ']' :: rest)))) =
          some (.list ((x :: xs').map .str), rest) := by
        have hfsucc : (n + 1) + 2 * (x :: xs' : List String).length =
            (n + 2 * (x :: xs' : List String).length) + 1 := by omega
        rw [hfsucc, ← hval, parseJ_items_skipJWs]
        have := parseJ_items_skills w xs' x (n + 1) ['\n'] rest (by
          intro y hy
          rcases List.mem_cons.mp hy with h | h
          · subst h
            rfl
          · cases h)
        rw [List.singleton_append] at this
        have hfix : (n + 1) + 2 * (x :: xs' : List String).length =
            n + 2 * (x :: xs' : List String).length + 1 := by omega
        rw [hfix] at this
        exact this
      simp [hval]
      simp only [List.append_assoc, List.singleton_append, List.length_cons,
        List.map_cons] at hback
      exact hback

/-- Skipping whitespace lands on the opening quote of an encoded key that
follows a newline and an indent. -/
theorem skipJWs_key (k : String) (w : Nat) (R : List Char) :
    skipJWs ('\n' :: (nSpaces w ++ (encStr k ++ R))) =
      '"' :: ((k.data.map escChar).flatten ++ '"' :: R) := by
  rw [skipJWs_cons_ws _ _ (by decide), skipJWs_append_ws _ _ (nSpaces_all_ws _),
    show encStr k ++ R = '"' :: ((k.data.map escChar).flatten ++ '"' :: R) from by
      rw [show encStr k = '"' :: ((k.data.map escChar).flatten ++ ['"']) from rfl,
        List.cons_append, List.append_assoc, List.singleton_append]]
  exact skipJWs_cons_not _ _ (by decide)

/-- A string value preceded by the single space of `": "`. -/
theorem parseJ_value_str_sp (fuel : Nat) (s : String) (rest : List Char) :
    parseJ (fuel + 1) .value (' ' :: (encStr s ++ rest)) = some (.str s, rest) := by
  have h := parseJ_value_str fuel [' '] (by
    intro y hy
    rcases List.mem_cons.mp hy with h | h
    · subst h
      rfl
    · cases h) s rest
  rwa [List.singleton_append] at h

/-- A skills array preceded by the single space of `": "`. -/
theorem parseJ_value_skills_sp (w : Nat) (xs : List String) (n : Nat) (rest : List Char) :
    parseJ (n + (2 * xs.length + 2)) .value (' ' :: (encSkills w xs ++ rest)) =
      some (.list (xs.map .str), rest) := by
  have h := parseJ_value_skills w xs n [' '] rest (by
    intro y hy
    rcases List.mem_cons.mp hy with h | h
    · subst h
      rfl
    · cases h)
  rwa [List.singleton_append] at h

theorem parseJ_pairs_skipJWs (f : Nat) (cs : List Char) :
    parseJ (f + 1) .pairs (skipJWs cs) = parseJ (f + 1) .pairs cs := by
  rw [parseJ, parseJ, skipJWs_idem]

/-- One `"key": value` step of the object parser, ending the object. -/
theorem parseJ_pairs_last (g : Nat) (k : String) (v : PyVal) (VT RT r3 : List Char)
    (hv : parseJ g .value (' ' :: VT) = some (v, RT))
    (hs : skipJWs RT = '}' :: r3) :
    parseJ (g + 1) .pairs ('"' :: ((k.data.map escChar).flatten ++ '"' :: ':' :: ' ' :: VT)) =
      some (.dict [(k, v)], r3) := by
  rw [parseJ, skipJWs_cons_not _ _ (by decide)]
  have hbody : parseStrBody ((k.data.map escChar).flatten ++ '"' :: (':' :: ' ' :: VT)) =
      some (k.data, ':' :: ' ' :: VT) := parseStrBody_enc k.data _
  simp only [hbody, skipJWs_cons_not ':' (' ' :: VT) (by decide), hv, hs]

/-- One `"key": value,` step of the object parser, continuing with the
remaining pairs. -/
theorem parseJ_pairs_cons (g : Nat) (k : String) (v : PyVal) (VT RT r3 r4 : List Char)
    (kvs : List (String × PyVal))
    (hv : parseJ g .value (' ' :: VT) = some (v, RT))
    (hs : skipJWs RT = ',' :: r3)
    (hrec : parseJ g .pairs r3 = some (.dict kvs, r4)) :
    parseJ (g + 1) .pairs ('"' :: ((k.data.map escChar).flatten ++ '"' :: ':' :: ' ' :: VT)) =
      some (.dict ((k, v) :: kvs), r4) := by
  rw [parseJ, skipJWs_cons_not _ _ (by decide)]
  have hbody : parseStrBody ((k.data.map escChar).flatten ++ '"' :: (':' :: ' ' :: VT)) =
      some (k.data, ':' :: ' ' :: VT) := parseStrBody_enc k.data _
  simp only [hbody, skipJWs_cons_not ':' (' ' :: VT) (by decide), hv, hs, hrec]

/-- The serialized three-key resume dictionary parses back to the
dictionary value, with `2·|skills| + 8` fuel to spare. -/
theorem parseJ_value_resume (nm em : String) (sk : List String) (w : Nat) (n : Nat) :
    parseJ (n + (2 * sk.length + 8)) .value ((ResumeData.to_json ⟨nm, em, sk⟩ w).data) =
      some (ResumeData.to_dict ⟨nm, em, sk⟩, []) := by
  have h3 : parseJ ((n + 2 * sk.length + 4) + 1) .pairs
      ('"' :: (("skills".data.map escChar).flatten ++ '"' :: ':' :: ' ' ::
        (encSkills w sk ++ ['\n', '}']))) =
      some (.dict [("skills", .list (sk.map .str))], []) := by
    have hv := parseJ_value_skills_sp w sk (n + 2) ['\n', '}']
    rw [show (n + 2) + (2 * sk.length + 2) = n + 2 * sk.length + 4 from by omega] at hv
    exact parseJ_pairs_last _ "skills" _ _ _ _ hv (by decide)
  have h2 : parseJ ((n + 2 * sk.length + 5) + 1) .pairs
      ('"' :: (("email".data.map escChar).flatten ++ '"' :: ':' :: ' ' ::
        (encStr em ++ ',' :: '\n' :: (nSpaces w ++ (encStr "skills" ++ ':' :: ' ' ::
          (encSkills w sk ++ ['\n', '}'])))))) =
      some (.dict [("email", .str em), ("skills", .list (sk.map .str))], []) := by
    have hv := parseJ_value_str_sp (n + 2 * sk.length + 4) em
      (',' :: '\n' :: (nSpaces w ++ (encStr "skills" ++ ':' :: ' ' ::
        (encSkills w sk ++ ['\n', '}']))))
    rw [show (n + 2 * sk.length + 4) + 1 = n + 2 * sk.length + 5 from by omega] at hv
    have hrec : parseJ (n + 2 * sk.length + 5) .pairs
        ('\n' :: (nSpaces w ++ (encStr "skills" ++ ':' :: ' ' ::
          (encSkills w sk ++ ['\n', '}'])))) =
        some (.dict [("skills", .list (sk.map .str))], []) := by
      rw [show n + 2 * sk.length + 5 = (n + 2 * sk.length + 4) + 1 from by omega,
        ← parseJ_pairs_skipJWs, skipJWs_key]
      exact h3
    exact parseJ_pairs_cons _ "email" _ _ _ _ _ _ hv (skipJWs_cons_not _ _ (by decide)) hrec
  have h1 : parseJ ((n + 2 * sk.length + 6) + 1) .pairs
      ('"' :: (("name".data.map escChar).flatten ++ '"' :: ':' :: ' ' ::
        (encStr nm ++ ',' :: '\n' :: (nSpaces w ++ (encStr "email" ++ ':' :: ' ' ::
          (encStr em ++ ',' :: '\n' :: (nSpaces w ++ (encStr "skills" ++ ':' :: ' ' ::
            (encSkills w sk ++ ['\n', '}']))))))))) =
      some (.dict [("name", .str nm), ("email", .str em),
        ("skills", .list (sk.map .str))], []) := by
    have hv := parseJ_value_str_sp (n + 2 * sk.length + 5) nm
      (',' :: '\n' :: (nSpaces w ++ (encStr "email" ++ ':' :: ' ' ::
        (encStr em ++ ',' :: '\n' :: (nSpaces w ++ (encStr "skills" ++ ':' :: ' ' ::
          (encSkills w sk ++ ['\n', '}'])))))))
    rw [show (n + 2 * sk.length + 5) + 1 = n + 2 * sk.length + 6 from by omega] at hv
    have hrec : parseJ (n + 2 * sk.length + 6) .pairs
        ('\n' :: (nSpaces w ++ (encStr "email" ++ ':' :: ' ' ::
          (encStr em ++ ',' :: '\n' :: (nSpaces w ++ (encStr "skills" ++ ':' :: ' ' ::
            (encSkills w sk ++ ['\n', '}']))))))) =
        some (.dict [("email", .str em), ("skills", .list (sk.map .str))], []) := by
      rw [show n + 2 * sk.length + 6 = (n + 2 * sk.length + 5) + 1 from by omega,
        ← parseJ_pairs_skipJWs, skipJWs_key]
      exact h2
    exact parseJ_pairs_cons _ "name" _ _ _ _ _ _ hv (skipJWs_cons_not _ _ (by decide)) hrec
  show parseJ (n + (2 * sk.length + 8)) .value
      ('{' :: '\n' ::
        (nSpaces w ++ encStr "name" ++ ':' :: ' ' :: encStr nm ++ ',' :: '\n' ::
          (nSpaces w ++ encStr "email" ++ ':' :: ' ' :: encStr em ++ ',' :: '\n' ::
            (nSpaces w ++ encStr "skills" ++ ':' :: ' ' :: encSkills w sk ++
              '\n' :: ['}'])))) =
      some (.dict [("name", .str nm), ("email", .str em),
        ("skills", .list (sk.map .str))], [])
  simp only [List.append_assoc, List.cons_append, List.singleton_append]
  rw [show n + (2 * sk.length + 8) = (n + 2 * sk.length + 7) + 1 from by omega, parseJ,
    skipJWs_cons_not _ _ (by decide)]
  simp only [skipJWs_key]
  split
  next heq => simp at heq
  next cs' heq =>
    rw [show n + 2 * sk.length + 7 = (n + 2 * sk.length + 6) + 1 from by omega]
    exact h1

theorem two_le_length_encStr (s : String) : 2 ≤ (encStr s).length := by
  show 2 ≤ ('"' :: ((s.data.map escChar).flatten ++ ['"'])).length
  simp

theorem length_encSkillsItems (w : Nat) :
    ∀ (x : String) (xs : List String),
    (x :: xs).length ≤ (encSkillsItems w (x :: xs)).length := by
  intro x xs
  induction xs generalizing x with
  | nil =>
      rw [show encSkillsItems w [x] = nSpaces (2 * w) ++ encStr x from rfl]
      have := two_le_length_encStr x
      simp only [List.length_append, List.length_cons, List.length_nil]
      omega
  | cons y ys ih =>
      rw [show encSkillsItems w (x :: y :: ys) =
        nSpaces (2 * w) ++ encStr x ++ ',' :: '\n' :: encSkillsItems w (y :: ys) from rfl]
      have h1 := ih y
      have h2 := two_le_length_encStr x
      simp only [List.length_append, List.length_cons] at h1 ⊢
      omega

theorem length_encSkills (w : Nat) (xs : List String) :
    xs.length ≤ (encSkills w xs).length := by
  cases xs with
  | nil => simp [encSkills]
  | cons x xs' =>
      rw [show encSkills w (x :: xs') =
        '[' :: '\n' :: (encSkillsItems w (x :: xs') ++ '\n' :: (nSpaces w ++ [']'])) from rfl]
      have := length_encSkillsItems w x xs'
      simp only [List.length_cons, List.length_append] at this ⊢
      omega

/-- C9: converting a `ResumeData` to its canonical mapping (key order
`name`, `email`, `skills`), serializing that mapping with
`json.dumps(..., indent)` and decoding the result with `json.loads`
reproduces the original name, email and skills sequence exactly, with the
same stable key order. -/
theorem resume_json_roundtrip (rd : ResumeData) (w : Nat) :
    pyJsonLoads (rd.to_json w) = some rd.to_dict := by
  obtain ⟨nm, em, sk⟩ := rd
  have hlen : sk.length ≤ (ResumeData.to_json ⟨nm, em, sk⟩ w).data.length := by
    show sk.length ≤ ('{' :: '\n' ::
      (nSpaces w ++ encStr "name" ++ ':' :: ' ' :: encStr nm ++ ',' :: '\n' ::
        (nSpaces w ++ encStr "email" ++ ':' :: ' ' :: encStr em ++ ',' :: '\n' ::
          (nSpaces w ++ encStr "skills" ++ ':' :: ' ' :: encSkills w sk ++
            '\n' :: ['}'])))).length
    have := length_encSkills w sk
    simp only [List.length_cons, List.length_append]
    omega
  unfold pyJsonLoads
  rw [show 2 * (ResumeData.to_json ⟨nm, em, sk⟩ w).data.length + 8 =
      (2 * (ResumeData.to_json ⟨nm, em, sk⟩ w).data.length - 2 * sk.length) +
        (2 * sk.length + 8) from by omega,
    parseJ_value_resume]
  rfl
